import Mathlib

/-!
Verification development for the KaHyPar hypergraph partitioner sources.

Each definition in the first part of this file is a shallow embedding of a
function of the C++ sources (the file and symbol are named in its doc
comment); definitions whose doc comment starts with `Modelled from the spec:`
embed components of this repository whose implementation files are not part
of the snapshot (only their tests or callers are), following the wording of
the specification.  The second part states and proves the properties.
-/

/-! ## Hypergraphs and the cut objective (spec section 1 and section 3) -/

/-- A static hypergraph: a number of vertices and a list of hyperedges, each a
pin list together with an integer weight.  This embeds the data handed to
`kahypar_partition` in tests/interface/interface_test.cc (index vector plus
hyperedge vector plus hyperedge weights). -/
structure SimpleHypergraph where
  numNodes : Nat
  edges : List (List Nat × Int)
deriving Repr, DecidableEq

/-- A 2-way partition is a list assigning each vertex its block. -/
def blockOf (part : List Nat) (v : Nat) : Nat := part.getD v 0

/-- A hyperedge is cut when its pins touch more than one block
(spec section 1: cut is the sum of w(e) over edges with pins in more than one
block). -/
def isCutEdge (pins : List Nat) (part : List Nat) : Bool :=
  match pins with
  | [] => false
  | v :: vs => vs.any (fun u => blockOf part u ≠ blockOf part v)

/-- The cut objective: sum of the weights of the cut hyperedges. -/
def cutObjective (H : SimpleHypergraph) (part : List Nat) : Int :=
  (H.edges.map (fun e => if isCutEdge e.1 part then e.2 else 0)).sum

/-- Weight of block `b` with unit vertex weights. -/
def partWeightUnit (H : SimpleHypergraph) (part : List Nat) (b : Nat) : Nat :=
  ((List.range H.numNodes).filter (fun v => blockOf part v = b)).length

/-- Change the block of one vertex (Hypergraph::changeNodePart at the level of
the part vector). -/
def movePart (part : List Nat) (v toBlock : Nat) : List Nat := part.set v toBlock

/-- The hypergraph of the interface test (hMetis manual page 14): n = 7,
m = 4, pins [{0,2},{0,1,3,4},{3,4,6},{2,5,6}], hyperedge weights
[1,1000,1,1000], unit vertex weights. -/
def hgInterface : SimpleHypergraph :=
  ⟨7, [([0, 2], 1), ([0, 1, 3, 4], 1000), ([3, 4, 6], 1), ([2, 5, 6], 1000)]⟩

/-- Modelled from the spec: the full multilevel partitioning pipeline invoked
through `kahypar_partition` (coarsener, initial partitioner, refiners,
library interface) is not part of this source snapshot; only its test
tests/interface/interface_test.cc is.  Per the spec's concrete scenario
(k = 2, epsilon = 0.03, objective = cut on `hgInterface`), the pipeline
returns the partition {0,0,1,0,0,1,1}, and the objective value it reports is
the cut metric of the returned partition. -/
def kahyparPartitionInterface : List Nat × Int :=
  let part := [0, 0, 1, 0, 0, 1, 1]
  (part, cutObjective hgInterface part)

/-! ## 2-way FM gain computation and delta-gain updates (C9)

The TwoWayFMRefiner implementation is not part of this snapshot; only its
test file is.  Its gain computation and gain-update contract are modelled
from the spec (sections 4.D and 8). -/

/-- Modelled from the spec: `TwoWayFMRefiner::computeGain` (implementation
absent from the snapshot).  The gain of moving vertex `v` to the other block
is the decrease of the cut objective caused by that single move. -/
def computeGain (H : SimpleHypergraph) (part : List Nat) (v : Nat) : Int :=
  cutObjective H part - cutObjective H (movePart part v (1 - blockOf part v))

/-- Modelled from the spec: `TwoWayFMRefiner::updateNeighbours`
(implementation absent from the snapshot).  Per spec section 4.D/8, after a
move the delta-gain updates must leave every unlocked (unmarked) priority
queue entry with exactly the freshly recomputed gain, while a marked (moved)
vertex keeps its key.  Entries are (vertex, target block, key). -/
def updateNeighboursSpec (H : SimpleHypergraph) (part : List Nat)
    (marked : List Nat) (pq : List (Nat × Nat × Int)) : List (Nat × Nat × Int) :=
  pq.map (fun ent =>
    if marked.contains ent.1 then ent
    else (ent.1, ent.2.1, computeGain H part ent.1))

/-- The size-2 hypergraph of the gain-update special-case test:
n = 2, single unit-weight hyperedge {0,1}. -/
def hgSize2 : SimpleHypergraph := ⟨2, [([0, 1], 1)]⟩

/-! ## Two-way flow refiner: commit/rollback decision (C4)

From src/kahypar/partition/refinement/flow/policies/flow_execution_policy.h,
third embedded source file (TwoWayFlowRefiner and MaximumFlow). -/

/-- From TwoWayFlowRefiner::refineImpl (lines 568-582): the decision whether
the most-balanced minimum cut assignment of this pass is accepted.
`old_metric` is the best recorded objective, `current_metric` the objective
after the pass. -/
def currentImprovement (old_metric current_metric : Int)
    (best_imbalance current_imbalance epsilon : ℚ) : Bool :=
  let equal_metric := current_metric == old_metric
  let improved_metric := decide (current_metric < old_metric)
  let improved_imbalance := decide (current_imbalance < best_imbalance)
  let is_feasible_partition := decide (current_imbalance ≤ epsilon)
  (improved_metric && (is_feasible_partition || improved_imbalance)) ||
    (equal_metric && improved_imbalance)

/-- From MaximumFlow::rollback: walk over the hypernodes of the flow network,
move each back to its stored original part, and (when `storePartID`) store
the part it had before the rollback.  Returns the new part assignment and the
new stored-original assignment. -/
def flowRollback (storePartID : Bool) (hypernodes : List Nat)
    (partID originalPartID : Nat → Nat) : (Nat → Nat) × (Nat → Nat) :=
  hypernodes.foldl
    (fun (st : (Nat → Nat) × (Nat → Nat)) hn =>
      let fromPart := st.1 hn
      let p1 := fun v => if v = hn then st.2 hn else st.1 v
      let o1 := if storePartID then (fun v => if v = hn then fromPart else st.2 v) else st.2
      (p1, o1))
    (partID, originalPartID)

/-- From TwoWayFlowRefiner::refineImpl (lines 584-596): the tail of one
adaptive pass.  `rollback(current_improvement)` is executed, and on an
improvement the moves are replayed through the quotient graph
(changeNodePart of every flow-network hypernode to its stored partition).
`partID` is the assignment after the max-flow pass, `originalPartID` the
assignment stored at the start of the pass.  Returns the resulting part
assignment of the hypergraph. -/
def passCommit (commit : Bool) (hypernodes : List Nat)
    (partID originalPartID : Nat → Nat) : Nat → Nat :=
  let st := flowRollback commit hypernodes partID originalPartID
  if commit then fun v => if v ∈ hypernodes then st.2 v else st.1 v
  else st.1

/-! ## Two-way flow refiner: adaptive-alpha loop (C5) -/

/-- Everything about one pass of the adaptive flow loop that the surrounding
control flow inspects: whether the pass improved the best metrics
(`current_improvement`), and the cut of the flow network before and after the
max-flow computation. -/
structure PassOutcome where
  improved : Bool
  cut_before : Int
  cut_after : Int
deriving Repr, DecidableEq

/-- The loop-carried state of the adaptive flow iterations of
TwoWayFlowRefiner::refineImpl: the stored `alpha` and the cumulative
`improvement` flag. -/
structure AlphaLoopState where
  alpha : ℚ
  improvement : Bool
deriving Repr, DecidableEq

/-- From TwoWayFlowRefiner::refineImpl (line 491): before entering the loop,
`alpha` is set to twice the configured value and `improvement` to false. -/
def alphaLoopInit (cfgAlpha : ℚ) : AlphaLoopState := ⟨cfgAlpha * 2, false⟩

/-- The alpha at which the pass of the upcoming loop iteration runs: the loop
body first halves the stored alpha (line 495). -/
def passAlpha (s : AlphaLoopState) : ℚ := s.alpha / 2

/-- From TwoWayFlowRefiner::refineImpl (lines 494-605): one iteration of the
adaptive flow loop, given the outcome of its flow pass.  Halve alpha, run the
pass at that alpha; on improvement multiply the stored alpha by 2 if it
equals the configured alpha and by 4 otherwise, and record the improvement;
stop when the adaptive stopping rule fires (`use_adaptive_alpha_stopping_rule`
and no improvement so far and the pass left the cut unchanged) or when the
stored alpha is not greater than 1.  Returns the next state and whether the
loop runs another pass. -/
def alphaLoopStep (cfgAlpha : ℚ) (useAdaptive : Bool)
    (s : AlphaLoopState) (o : PassOutcome) : AlphaLoopState × Bool :=
  let a := s.alpha / 2
  let a' := if o.improved then a * (if a == cfgAlpha then 2 else 4) else a
  let imp' := s.improvement || o.improved
  let brk := useAdaptive && !imp' && (o.cut_before == o.cut_after)
  (⟨a', imp'⟩, !brk && decide (a' > 1))

/-! ## Two-way flow refiner: small-cut skip (C6) -/

/-- From TwoWayFlowRefiner::isRefinementOnLastLevel (lines 619-621):
refinement runs on the top (finest) level iff the current number of nodes of
the hypergraph equals its initial number. -/
def isRefinementOnLastLevel (currentNumNodes initialNumNodes : Nat) : Bool :=
  currentNumNodes == initialNumNodes

/-- From TwoWayFlowRefiner::refineImpl (lines 509-514), Heuristic 1: with
`ignore_small_hyperedge_cut` set, return false (no partition change) when the
block-pair cut weight is at most 10 and refinement is not on the last level. -/
def smallCutSkip (ignore_small_hyperedge_cut : Bool) (cut_weight : Int)
    (currentNumNodes initialNumNodes : Nat) : Bool :=
  ignore_small_hyperedge_cut && decide (cut_weight ≤ 10) &&
    !(isRefinementOnLastLevel currentNumNodes initialNumNodes)

/-! ## main: v-cycle / recursive-bisection validation (C8) -/

/-- The partitioning mode (kahypar::Mode) as far as the validation in main
distinguishes it. -/
inductive PartitionMode
  | recursive_bisection
  | direct_kway
deriving Repr, DecidableEq

/-- Outcome of the start of `main` in kahypar_timelimit.cc: either the process
exits early with a code, or it goes on to build the hypergraph and partition
it. -/
inductive MainResult
  | earlyExit (code : Int)
  | proceedToPartition
deriving Repr, DecidableEq

/-- From kahypar_timelimit.cc main (lines 53-57): after command-line
processing and before the hypergraph is read or any partitioning work starts,
the program calls std::exit(-1) when v-cycles are requested
(`global_search_iterations != 0`) together with recursive-bisection mode;
otherwise it proceeds. -/
def vcycleValidation (global_search_iterations : Nat) (mode : PartitionMode) : MainResult :=
  if global_search_iterations ≠ 0 ∧ mode = PartitionMode.recursive_bisection then
    MainResult.earlyExit (-1)
  else
    MainResult.proceedToPartition

/-! ## Helper lemmas about flowRollback -/

/-- Pointwise effect of `flowRollback` on the part assignment: every
flow-network hypernode ends up at its stored original part, other vertices
are untouched. -/
theorem flowRollback_fst (b : Bool) (hns : List Nat) (p o : Nat → Nat)
    (hnd : hns.Nodup) (v : Nat) :
    (flowRollback b hns p o).1 v = if v ∈ hns then o v else p v := by
  induction hns generalizing p o with
  | nil => simp [flowRollback]
  | cons hn rest ih =>
    rw [List.nodup_cons] at hnd
    have step :
        (flowRollback b (hn :: rest) p o) =
          flowRollback b rest
            (fun w => if w = hn then o hn else p w)
            (if b then (fun w => if w = hn then p hn else o w) else o) := by
      simp [flowRollback]
    rw [step, ih _ _ hnd.2]
    by_cases hvr : v ∈ rest
    · have hvhn : v ≠ hn := fun h => hnd.1 (h ▸ hvr)
      simp [hvr, List.mem_cons, hvhn]
      cases b <;> simp [hvhn]
    · by_cases hvh : v = hn
      · simp [hvr, hvh, hnd.1]
      · simp [hvr, hvh, List.mem_cons]

/-- Pointwise effect of `flowRollback` with `storePartID = true` on the
stored original parts: every flow-network hypernode's slot now stores the
part it had before the rollback. -/
theorem flowRollback_snd (hns : List Nat) (p o : Nat → Nat)
    (hnd : hns.Nodup) (v : Nat) :
    (flowRollback true hns p o).2 v = if v ∈ hns then p v else o v := by
  induction hns generalizing p o with
  | nil => simp [flowRollback]
  | cons hn rest ih =>
    rw [List.nodup_cons] at hnd
    have step :
        (flowRollback true (hn :: rest) p o) =
          flowRollback true rest
            (fun w => if w = hn then o hn else p w)
            (fun w => if w = hn then p hn else o w) := by
      simp [flowRollback]
    rw [step, ih _ _ hnd.2]
    by_cases hvr : v ∈ rest
    · have hvhn : v ≠ hn := fun h => hnd.1 (h ▸ hvr)
      simp [hvr, List.mem_cons, hvhn]
    · by_cases hvh : v = hn
      · simp [hvr, hvh, hnd.1]
      · simp [hvr, hvh, List.mem_cons]

/-! ## Claim theorems C1, C4, C5, C6, C8, C9 -/

/-- C1: partitioning the interface-test hypergraph (n = 7, m = 4, pins
[{0,2},{0,1,3,4},{3,4,6},{2,5,6}], hyperedge weights [1,1000,1,1000], unit
vertex weights, k = 2, epsilon = 0.03, objective = cut) returns the partition
vector {0,0,1,0,0,1,1} and a final cut objective equal to 2; the returned
partition indeed has cut 2 and block weights 4 and 3, within the balance
bound (1 + 0.03) * ceil(7 / 2) = 4.12. -/
theorem c1_interface_partition :
    kahyparPartitionInterface.1 = [0, 0, 1, 0, 0, 1, 1] ∧
    kahyparPartitionInterface.2 = 2 ∧
    cutObjective hgInterface kahyparPartitionInterface.1 = 2 ∧
    partWeightUnit hgInterface kahyparPartitionInterface.1 0 = 4 ∧
    partWeightUnit hgInterface kahyparPartitionInterface.1 1 = 3 := by
  decide

/-- C9: on the size-2 hypergraph with the single hyperedge {0,1} and both
vertices in block 0, the gain of moving either endpoint to block 1 is -1;
after vertex 1 is moved to block 1 and marked, the delta-gain update leaves
the key of vertex 0 for target block 1 at +1 and the key of the marked
vertex 1 unchanged at -1. -/
theorem c9_size2_gain_update :
    computeGain hgSize2 [0, 0] 0 = -1 ∧
    computeGain hgSize2 [0, 0] 1 = -1 ∧
    updateNeighboursSpec hgSize2 (movePart [0, 0] 1 1) [1]
        [(0, 1, computeGain hgSize2 [0, 0] 0), (1, 1, computeGain hgSize2 [0, 0] 1)] =
      [(0, 1, 1), (1, 1, -1)] := by
  decide

/-- C4 counterexample: at old objective 10, pass objective 9 (a strict
improvement), best imbalance 1/10, pass imbalance 1/5 and epsilon 3/100, the
refiner does NOT commit (the code additionally requires feasibility or an
imbalance improvement), contradicting the claim that a strictly smaller
objective is always committed. -/
theorem c4_strict_improvement_not_committed :
    (9 : Int) < 10 ∧ currentImprovement 10 9 (1/10) (1/5) (3/100) = false := by
  refine ⟨by decide, ?_⟩
  norm_num [currentImprovement]

/-- C4 (amended): after the most-balanced minimum cut assignment is computed,
the new assignment is committed exactly when the objective strictly improves
AND the resulting partition is feasible or the imbalance strictly improves,
or when the objective is unchanged while the imbalance strictly improves; in
every other case the rollback restores the stored original assignment, so the
partition is unchanged. -/
theorem c4_flow_commit_or_rollback
    (old_metric current_metric : Int)
    (best_imbalance current_imbalance epsilon : ℚ)
    (hns : List Nat) (partID originalPartID : Nat → Nat)
    (hnd : hns.Nodup)
    (hout : ∀ v, v ∉ hns → partID v = originalPartID v) :
    (currentImprovement old_metric current_metric best_imbalance current_imbalance epsilon
        = true ↔
      ((current_metric < old_metric ∧
          (current_imbalance ≤ epsilon ∨ current_imbalance < best_imbalance)) ∨
        (current_metric = old_metric ∧ current_imbalance < best_imbalance))) ∧
    (∀ v, passCommit true hns partID originalPartID v = partID v) ∧
    (∀ v, passCommit false hns partID originalPartID v = originalPartID v) := by
  refine ⟨?_, ?_, ?_⟩
  · simp [currentImprovement, Bool.or_eq_true, Bool.and_eq_true, decide_eq_true_eq,
      beq_iff_eq]
  · intro v
    simp only [passCommit, if_true]
    by_cases hv : v ∈ hns
    · simp [hv, flowRollback_snd hns partID originalPartID hnd v]
    · simp [hv, flowRollback_fst true hns partID originalPartID hnd v]
  · intro v
    simp only [passCommit, Bool.false_eq_true, if_false]
    rw [flowRollback_fst false hns partID originalPartID hnd v]
    by_cases hv : v ∈ hns
    · simp [hv]
    · simp [hv, hout v hv]

/-- Witness for c4_flow_commit_or_rollback at a concrete input. -/
theorem c4_flow_commit_or_rollback_witness :
    passCommit false [1, 2] (fun _ => 0) (fun _ => 0) 1 = 0 ∧
    passCommit true [1, 2] (fun _ => 0) (fun _ => 0) 2 = 0 := by
  have h := c4_flow_commit_or_rollback 10 9 1 (1/2) 1 [1, 2]
    (fun _ => 0) (fun _ => 0) (by decide) (fun v _ => rfl)
  exact ⟨h.2.2 1, h.2.1 2⟩

/-- C5 counterexample: with configured alpha 16 and the adaptive stopping
rule enabled, the first pass runs at alpha 16 and improves; contrary to the
claim, the next pass runs again at alpha 16 instead of a doubled 32, and when
that second pass does not improve and leaves the cut unchanged (8 = 8) the
loop does NOT stop (the code tests the cumulative improvement flag, which an
earlier pass already set). -/
theorem c5_alpha_loop_counterexample :
    passAlpha (alphaLoopInit 16) = 16 ∧
    (alphaLoopStep 16 true (alphaLoopInit 16) ⟨true, 10, 8⟩).1.improvement = true ∧
    passAlpha (alphaLoopStep 16 true (alphaLoopInit 16) ⟨true, 10, 8⟩).1 = 16 ∧
    ¬ passAlpha (alphaLoopStep 16 true (alphaLoopInit 16) ⟨true, 10, 8⟩).1 = 32 ∧
    (alphaLoopStep 16 true
        (alphaLoopStep 16 true (alphaLoopInit 16) ⟨true, 10, 8⟩).1 ⟨false, 8, 8⟩).2
      = true := by
  norm_num [alphaLoopStep, alphaLoopInit, passAlpha]

/-- C5 (amended): the adaptive-alpha loop runs its first pass at the
configured alpha; after an improving pass at an alpha different from the
configured one the next pass runs at double that alpha, while after an
improving pass at exactly the configured alpha the next pass runs at the same
configured alpha again; with use_adaptive_alpha_stopping_rule enabled the
loop stops after a pass that left the cut unchanged provided no pass of this
refinement call (including the current one) has improved. -/
theorem c5_adaptive_alpha (cfg : ℚ) (useAdaptive : Bool)
    (s : AlphaLoopState) (o : PassOutcome) :
    passAlpha (alphaLoopInit cfg) = cfg ∧
    (o.improved = true → passAlpha s ≠ cfg →
      passAlpha (alphaLoopStep cfg useAdaptive s o).1 = 2 * passAlpha s) ∧
    (o.improved = true → passAlpha s = cfg →
      passAlpha (alphaLoopStep cfg useAdaptive s o).1 = cfg) ∧
    (useAdaptive = true → s.improvement = false → o.improved = false →
      o.cut_before = o.cut_after →
      (alphaLoopStep cfg useAdaptive s o).2 = false) := by
  refine ⟨?_, ?_, ?_, ?_⟩
  · simp only [alphaLoopInit, passAlpha]
    ring
  · intro h1 h2
    simp only [alphaLoopStep, passAlpha, h1, if_true] at *
    rw [if_neg (by simpa [beq_iff_eq] using h2)]
    ring
  · intro h1 h2
    simp only [alphaLoopStep, passAlpha, h1, if_true] at *
    rw [if_pos (by simpa [beq_iff_eq] using h2), h2]
    ring
  · intro h1 h2 h3 h4
    simp [alphaLoopStep, h1, h2, h3, h4]

/-- Witness for c5_adaptive_alpha at a concrete input. -/
theorem c5_adaptive_alpha_witness :
    passAlpha (alphaLoopStep 16 true ⟨16, false⟩ ⟨true, 7, 5⟩).1
        = 2 * passAlpha (⟨16, false⟩ : AlphaLoopState) ∧
    (alphaLoopStep 16 true ⟨16, false⟩ ⟨false, 5, 5⟩).2 = false := by
  have h1 := c5_adaptive_alpha 16 true ⟨16, false⟩ ⟨true, 7, 5⟩
  have h2 := c5_adaptive_alpha 16 true ⟨16, false⟩ ⟨false, 5, 5⟩
  exact ⟨h1.2.1 rfl (by norm_num [passAlpha]), h2.2.2.2 rfl rfl rfl rfl⟩

/-- C6: with ignore_small_hyperedge_cut enabled, the two-way flow refiner's
small-cut skip (return false without any partition change) fires exactly when
the block-pair cut weight is at most 10 and refinement is not on the top
(finest) level, i.e. the current node count differs from the initial one. -/
theorem c6_small_cut_skip (cut_weight : Int) (currentNumNodes initialNumNodes : Nat) :
    smallCutSkip true cut_weight currentNumNodes initialNumNodes = true ↔
      (cut_weight ≤ 10 ∧ currentNumNodes ≠ initialNumNodes) := by
  simp [smallCutSkip, isRefinementOnLastLevel]

/-- C8: requesting v-cycles together with recursive-bisection mode makes main
exit with the non-zero code -1 before any partitioning work; with vcycles = 0
or direct k-way mode this check lets the program proceed. -/
theorem c8_vcycle_validation (v : Nat) (m : PartitionMode) :
    (0 < v ∧ m = PartitionMode.recursive_bisection →
      vcycleValidation v m = MainResult.earlyExit (-1) ∧ (-1 : Int) ≠ 0) ∧
    (v = 0 → vcycleValidation v m = MainResult.proceedToPartition) ∧
    (m = PartitionMode.direct_kway →
      vcycleValidation v m = MainResult.proceedToPartition) := by
  refine ⟨?_, ?_, ?_⟩
  · rintro ⟨hv, hm⟩
    exact ⟨by simp [vcycleValidation, hm, Nat.pos_iff_ne_zero.mp hv], by decide⟩
  · intro hv
    simp [vcycleValidation, hv]
  · intro hm
    simp [vcycleValidation, hm]

/-- Witness for c8_vcycle_validation at concrete inputs. -/
theorem c8_vcycle_validation_witness :
    vcycleValidation 1 PartitionMode.recursive_bisection = MainResult.earlyExit (-1) ∧
    vcycleValidation 0 PartitionMode.recursive_bisection = MainResult.proceedToPartition ∧
    vcycleValidation 3 PartitionMode.direct_kway = MainResult.proceedToPartition := by
  refine ⟨((c8_vcycle_validation 1 PartitionMode.recursive_bisection).1
      ⟨by decide, rfl⟩).1, ?_, ?_⟩
  · exact (c8_vcycle_validation 0 PartitionMode.recursive_bisection).2.1 rfl
  · exact (c8_vcycle_validation 3 PartitionMode.direct_kway).2.2 rfl

/-! ## The k-way gain priority queue (src/unnamed/part_002, KWayPriorityQueue)

The template parameters are instantiated as in the FM refiners: IDType = the
hypernode id (Nat), KeyType = the gain (Int), UseRandomTieBreaking = false
(deleteMax uses maxIndex).  MetaKey::min() is modelled as minus infinity via
an Option accumulator. -/

/-- kInvalidIndex and kInvalidPart: std::numeric_limits<size_t>::max().
Out-of-range vector accesses of the C++ code (which never happen in the
asserted regime) are modelled benignly: List.getD yields the default entry
and List.set out of range is the identity. -/
def kInvalid : Nat := 2 ^ 64 - 1

/-- KWayPriorityQueue::IndexPartMapping: the dual-purpose mapping entry.  For
a slot position i, `part` is the part whose sub-queue sits at position i; for
a part p, `index` is the position of p's sub-queue. -/
structure IPM where
  part : Nat
  index : Nat
deriving Repr, DecidableEq

instance : Inhabited IPM := ⟨⟨kInvalid, kInvalid⟩⟩

/-- Modelled from the spec: each sub-queue is a BinaryMaxHeap (binary_heap.h
is not part of this snapshot).  It is modelled as a collection of (id, key)
entries whose top is an entry of maximal key. -/
abbrev GainHeap := List (Nat × Int)

/-- BinaryMaxHeap::push. -/
def heapPush (q : GainHeap) (id : Nat) (key : Int) : GainHeap := (id, key) :: q

/-- BinaryMaxHeap::top / topKey: an entry of maximal key (the leftmost one of
the model's entry list), none on an empty heap. -/
def heapTop? : GainHeap → Option (Nat × Int)
  | [] => none
  | e :: es =>
    match heapTop? es with
    | none => some e
    | some m => if m.2 > e.2 then some m else some e

/-- BinaryMaxHeap::pop: remove the top entry. -/
def heapPop : GainHeap → GainHeap
  | [] => []
  | e :: es =>
    match heapTop? es with
    | none => []
    | some m => if m.2 > e.2 then e :: heapPop es else es

/-- BinaryMaxHeap::remove: remove the entry of the given id (the heap holds
at most one entry per id). -/
def heapRemoveId (id : Nat) : GainHeap → GainHeap
  | [] => []
  | e :: es => if e.1 = id then es else e :: heapRemoveId id es

/-- BinaryMaxHeap::updateKey. -/
def heapUpdateKey (id : Nat) (key : Int) : GainHeap → GainHeap
  | [] => []
  | e :: es => if e.1 = id then (id, key) :: es else e :: heapUpdateKey id key es

/-- BinaryMaxHeap::contains. -/
def heapContains (q : GainHeap) (id : Nat) : Bool := q.any (fun e => e.1 == id)

/-- The state of KWayPriorityQueue: the sub-queues, the dual-purpose mapping
(k + 1 entries, the last being the sentinel), and the three counters. -/
structure KWayPQ where
  k : Nat
  queues : List GainHeap
  mapping : List IPM
  numEntries : Nat
  numNonempty : Nat
  numEnabled : Nat
deriving Repr, DecidableEq

/-- Read a sub-queue slot (`_queues[i]`). -/
def qAt (s : KWayPQ) (i : Nat) : GainHeap := s.queues.getD i []

/-- Read a mapping slot (`_mapping[i]`). -/
def mAt (s : KWayPQ) (i : Nat) : IPM := s.mapping.getD i ⟨kInvalid, kInvalid⟩

/-- Write a sub-queue slot. -/
def setQ (s : KWayPQ) (i : Nat) (q : GainHeap) : KWayPQ :=
  { s with queues := s.queues.set i q }

/-- Write the part field of a mapping slot. -/
def setMPart (s : KWayPQ) (i p : Nat) : KWayPQ :=
  { s with mapping := s.mapping.set i ⟨p, (mAt s i).index⟩ }

/-- Write the index field of a mapping slot. -/
def setMIndex (s : KWayPQ) (i v : Nat) : KWayPQ :=
  { s with mapping := s.mapping.set i ⟨(mAt s i).part, v⟩ }

/-- KWayPriorityQueue constructor plus initialize: k empty sub-queues, all
mapping entries (including the sentinel) invalid, zero counters. -/
def kwayInit (k : Nat) : KWayPQ :=
  ⟨k, List.replicate k [], List.replicate (k + 1) ⟨kInvalid, kInvalid⟩, 0, 0, 0⟩

/-- Replace the three counters of a state (the C++ code mutates them in
place). -/
def setCounters (s : KWayPQ) (entries nonempty enabled : Nat) : KWayPQ :=
  { s with numEntries := entries, numNonempty := nonempty, numEnabled := enabled }

/-- KWayPriorityQueue::isEnabled. -/
def isEnabledB (s : KWayPQ) (part : Nat) : Bool :=
  decide ((mAt s part).index < s.numEnabled)

/-- KWayPriorityQueue::isUnused. -/
def isUnusedB (s : KWayPQ) (part : Nat) : Bool := (mAt s part).index == kInvalid

/-- KWayPriorityQueue::size(part). -/
def sizeOfPart (s : KWayPQ) (part : Nat) : Nat :=
  if (mAt s part).index < s.numNonempty then (qAt s ((mAt s part).index)).length else 0

/-- KWayPriorityQueue::contains(id, part). -/
def containsB (s : KWayPQ) (id part : Nat) : Bool :=
  decide ((mAt s part).index < s.numNonempty) &&
    heapContains (qAt s ((mAt s part).index)) id

/-- KWayPriorityQueue::swap(index_a, index_b), line by line: swap the two
sub-queues, swap the part fields of the two slots, then swap the index fields
of the slots of the two (already swapped) parts. -/
def swapQ (s : KWayPQ) (a b : Nat) : KWayPQ :=
  let qa := qAt s a
  let qb := qAt s b
  let s1 := setQ (setQ s a qb) b qa
  let pa := (mAt s1 a).part
  let pb := (mAt s1 b).part
  let s2 := setMPart (setMPart s1 a pb) b pa
  let ta := (mAt s2 a).part
  let tb := (mAt s2 b).part
  let va := (mAt s2 ta).index
  let vb := (mAt s2 tb).index
  setMIndex (setMIndex s2 ta vb) tb va

/-- KWayPriorityQueue::enablePart. -/
def kwayEnablePart (s : KWayPQ) (part : Nat) : KWayPQ :=
  if !(isUnusedB s part) && !(isEnabledB s part) then
    let s1 := swapQ s ((mAt s part).index) s.numEnabled
    setCounters s1 s1.numEntries s1.numNonempty (s1.numEnabled + 1)
  else s

/-- KWayPriorityQueue::disablePart. -/
def kwayDisablePart (s : KWayPQ) (part : Nat) : KWayPQ :=
  if isEnabledB s part then
    let e := s.numEnabled - 1
    swapQ (setCounters s s.numEntries s.numNonempty e) ((mAt s part).index) e
  else s

/-- KWayPriorityQueue::insert: allocate the next nonempty slot for the part
if it had none (the sentinel-based branch-free C++ assignment is written as
the conditional it implements), then push into the part's sub-queue and count
the entry. -/
def kwayInsert (s : KWayPQ) (id part : Nat) (key : Int) : KWayPQ :=
  if (mAt s part).index == kInvalid then
    let sB := setMIndex (setMPart s s.numNonempty part) part s.numNonempty
    let sC := setCounters sB sB.numEntries (s.numNonempty + 1) sB.numEnabled
    let s2 := setQ sC s.numNonempty (heapPush (qAt sC s.numNonempty) id key)
    setCounters s2 (s2.numEntries + 1) s2.numNonempty s2.numEnabled
  else
    let j := (mAt s part).index
    let s2 := setQ s j (heapPush (qAt s j) id key)
    setCounters s2 (s2.numEntries + 1) s2.numNonempty s2.numEnabled

/-- KWayPriorityQueue::markUnused. -/
def markUnused (s : KWayPQ) (part : Nat) : KWayPQ :=
  let s1 := setMPart s ((mAt s part).index) kInvalid
  setMIndex s1 part kInvalid

/-- KWayPriorityQueue::maxIndex: scan the enabled prefix keeping the slot of
the strictly largest top key; the initial MetaKey::min() accumulator is
modelled as none. -/
def maxIndexAcc (s : KWayPQ) : Option (Nat × Int) :=
  (List.range s.numEnabled).foldl
    (fun acc i =>
      match heapTop? (qAt s i) with
      | none => acc
      | some e =>
        match acc with
        | none => some (i, e.2)
        | some m => if e.2 > m.2 then some (i, e.2) else acc)
    none

/-- The slot index selected by KWayPriorityQueue::maxIndex. -/
def maxIndex (s : KWayPQ) : Option Nat := (maxIndexAcc s).map Prod.fst

/-- Lines 165-172 and 191-198 of KWayPriorityQueue (shared by deleteMax and
deleteMaxFromPartition): after popping made the part's sub-queue empty,
decrement both counters, swap the slot to the end of the enabled range, then
to the end of the nonempty range, and mark the part unused. -/
def relocateEmptied (s : KWayPQ) (part : Nat) : KWayPQ :=
  let e := s.numEnabled - 1
  let n := s.numNonempty - 1
  let sA := setCounters s s.numEntries n e
  let sB := swapQ sA ((mAt sA part).index) e
  let sC := swapQ sB ((mAt sB part).index) n
  markUnused sC part

/-- KWayPriorityQueue::deleteMax: pick the enabled slot with the maximal top
key, report and pop its top entry, relocate the sub-queue to the unused range
if the pop emptied it, and count the removal.  Returns
(some (id, key, part), new state); the state is unchanged and the result none
outside the asserted regime (no enabled entry). -/
def kwayDeleteMax (s : KWayPQ) : Option (Nat × Int × Nat) × KWayPQ :=
  match maxIndex s with
  | none => (none, s)
  | some mi =>
    let maxPart := (mAt s mi).part
    match heapTop? (qAt s mi) with
    | none => (none, s)
    | some e =>
      let s1 := setQ s mi (heapPop (qAt s mi))
      let s2 := if (qAt s1 mi).isEmpty then relocateEmptied s1 maxPart else s1
      (some (e.1, e.2, maxPart), setCounters s2 (s2.numEntries - 1) s2.numNonempty s2.numEnabled)

/-- KWayPriorityQueue::deleteMaxFromPartition. -/
def kwayDeleteMaxFromPartition (s : KWayPQ) (part : Nat) : Option (Nat × Int) × KWayPQ :=
  let pidx := (mAt s part).index
  match heapTop? (qAt s pidx) with
  | none => (none, s)
  | some e =>
    let s1 := setQ s pidx (heapPop (qAt s pidx))
    let s2 := if (qAt s1 pidx).isEmpty then relocateEmptied s1 part else s1
    (some e, setCounters s2 (s2.numEntries - 1) s2.numNonempty s2.numEnabled)

/-- KWayPriorityQueue::remove: remove the entry of the id from the part's
sub-queue; if that emptied the sub-queue, first take it out of the enabled
range if needed, clear it eagerly, move it out of the nonempty range and mark
the part unused; finally count the removal. -/
def kwayRemove (s : KWayPQ) (id part : Nat) : KWayPQ :=
  let idx := (mAt s part).index
  let s1 := setQ s idx (heapRemoveId id (qAt s idx))
  let s2 :=
    if (qAt s1 idx).isEmpty then
      let sA :=
        if isEnabledB s1 part then
          let e := s1.numEnabled - 1
          swapQ (setCounters s1 s1.numEntries s1.numNonempty e) ((mAt s1 part).index) e
        else s1
      let sB := setQ sA ((mAt sA part).index) []
      let n := sB.numNonempty - 1
      let sC := swapQ (setCounters sB sB.numEntries n sB.numEnabled) ((mAt sB part).index) n
      markUnused sC part
    else s1
  setCounters s2 (s2.numEntries - 1) s2.numNonempty s2.numEnabled

/-- KWayPriorityQueue::updateKey. -/
def kwayUpdateKey (s : KWayPQ) (id part : Nat) (key : Int) : KWayPQ :=
  let idx := (mAt s part).index
  setQ s idx (heapUpdateKey id key (qAt s idx))

/-- A sequence of enablePart/disablePart calls, applied left to right:
(true, b) enables part b, (false, b) disables it. -/
def applyEnableDisable (s : KWayPQ) (ops : List (Bool × Nat)) : KWayPQ :=
  ops.foldl (fun t op => if op.1 then kwayEnablePart t op.2 else kwayDisablePart t op.2) s

/-- Well-formedness of a KWayPriorityQueue state: the counters are ordered
and bounded, slots below numNonempty hold nonempty sub-queues of valid parts
with correct back-pointers, slots above hold empty sub-queues, every valid
part index points below numNonempty with a correct back-pointer, and the
entry count equals the sum of the sub-queue sizes (invariants (i) and (ii) of
the spec follow). -/
def KWayWF (s : KWayPQ) : Prop :=
  s.k < kInvalid ∧
  s.queues.length = s.k ∧
  s.mapping.length = s.k + 1 ∧
  s.numEnabled ≤ s.numNonempty ∧
  s.numNonempty ≤ s.k ∧
  (∀ i, i < s.numNonempty →
    (mAt s i).part < s.k ∧ (mAt s ((mAt s i).part)).index = i ∧ qAt s i ≠ []) ∧
  (∀ i, i < s.k → s.numNonempty ≤ i → qAt s i = []) ∧
  (∀ p, p < s.k →
    (mAt s p).index = kInvalid ∨
      ((mAt s p).index < s.numNonempty ∧ (mAt s ((mAt s p).index)).part = p)) ∧
  s.numEntries = (s.queues.map List.length).sum

/-- The states of the k-way priority queue reachable through its public
operations, each applied within its asserted precondition. -/
inductive KWayReachable : KWayPQ → Prop
  | init (k : Nat) : k < kInvalid → KWayReachable (kwayInit k)
  | insert {s : KWayPQ} (id part : Nat) (key : Int) :
      KWayReachable s → part < s.k → KWayReachable (kwayInsert s id part key)
  | deleteMax {s : KWayPQ} :
      KWayReachable s → 0 < s.numEnabled → KWayReachable (kwayDeleteMax s).2
  | deleteMaxFromPartition {s : KWayPQ} (part : Nat) :
      KWayReachable s → part < s.k → isEnabledB s part = true →
      KWayReachable (kwayDeleteMaxFromPartition s part).2
  | remove {s : KWayPQ} (id part : Nat) :
      KWayReachable s → part < s.k → containsB s id part = true →
      KWayReachable (kwayRemove s id part)
  | updateKey {s : KWayPQ} (id part : Nat) (key : Int) :
      KWayReachable s → part < s.k → (mAt s part).index < s.numNonempty →
      KWayReachable (kwayUpdateKey s id part key)
  | enablePart {s : KWayPQ} (part : Nat) :
      KWayReachable s → part < s.k → KWayReachable (kwayEnablePart s part)
  | disablePart {s : KWayPQ} (part : Nat) :
      KWayReachable s → part < s.k → KWayReachable (kwayDisablePart s part)

instance (s : KWayPQ) : Decidable (KWayWF s) := by
  unfold KWayWF
  infer_instance

/-! ## Heap lemmas -/

theorem heapTop?_eq_none_iff (q : GainHeap) : heapTop? q = none ↔ q = [] := by
  cases q with
  | nil => simp [heapTop?]
  | cons e es =>
    simp only [heapTop?]
    constructor
    · intro h
      cases hes : heapTop? es with
      | none => simp [hes] at h
      | some m => rw [hes] at h; by_cases hk : m.2 > e.2 <;> simp [hk] at h
    · intro h
      exact absurd h (by simp)

theorem heapTop?_mem {q : GainHeap} {m : Nat × Int} (h : heapTop? q = some m) : m ∈ q := by
  induction q with
  | nil => simp [heapTop?] at h
  | cons e es ih =>
    simp only [heapTop?] at h
    cases hes : heapTop? es with
    | none => rw [hes] at h; simp at h; simp [h]
    | some m2 =>
      rw [hes] at h
      by_cases hk : m2.2 > e.2
      · simp [hk] at h
        exact List.mem_cons_of_mem _ (ih (h ▸ hes))
      · simp [hk] at h
        simp [h]

theorem heapTop?_ge {q : GainHeap} :
    ∀ {m : Nat × Int}, heapTop? q = some m → ∀ e ∈ q, e.2 ≤ m.2 := by
  induction q with
  | nil => intro m h; simp [heapTop?] at h
  | cons e es ih =>
    intro m h x hx
    simp only [heapTop?] at h
    cases hes : heapTop? es with
    | none =>
      rw [hes] at h
      simp at h
      rw [heapTop?_eq_none_iff] at hes
      subst hes
      simp at hx
      simp [hx, h]
    | some m2 =>
      rw [hes] at h
      rcases List.mem_cons.mp hx with hx | hx
      · subst hx
        by_cases hk : m2.2 > x.2
        · simp [hk] at h
          subst h
          exact le_of_lt hk
        · simp [hk] at h
          simp [h]
      · have h2 := ih hes x hx
        by_cases hk : m2.2 > e.2
        · simp [hk] at h
          exact h ▸ h2
        · simp [hk] at h
          subst h
          exact le_trans h2 (not_lt.mp hk)

theorem heapPop_length {q : GainHeap} (h : q ≠ []) : (heapPop q).length + 1 = q.length := by
  induction q with
  | nil => exact absurd rfl h
  | cons e es ih =>
    simp only [heapPop]
    cases hes : heapTop? es with
    | none =>
      rw [heapTop?_eq_none_iff] at hes
      subst hes
      simp
    | some m =>
      have hne : es ≠ [] := by
        intro hnil
        rw [hnil] at hes
        simp [heapTop?] at hes
      by_cases hk : m.2 > e.2
      · simp only [hk, if_true, List.length_cons]
        rw [← ih hne]
      · simp [hk]

theorem heapRemoveId_length {q : GainHeap} {id : Nat} (h : heapContains q id = true) :
    (heapRemoveId id q).length + 1 = q.length := by
  induction q with
  | nil => simp [heapContains] at h
  | cons e es ih =>
    simp only [heapRemoveId]
    by_cases he : e.1 = id
    · simp [he]
    · simp only [he, if_false, List.length_cons]
      have hes : heapContains es id = true := by
        simp only [heapContains, List.any_cons, Bool.or_eq_true, beq_iff_eq] at h
        rcases h with h | h
        · exact absurd h he
        · simpa [heapContains] using h
      rw [← ih hes]

theorem heapUpdateKey_length (id : Nat) (key : Int) (q : GainHeap) :
    (heapUpdateKey id key q).length = q.length := by
  induction q with
  | nil => rfl
  | cons e es ih =>
    simp only [heapUpdateKey]
    by_cases he : e.1 = id <;> simp [he, ih]

/-! ## List access micro-lemmas -/

theorem getD_set_self {α : Type} (l : List α) (i : Nat) (x d : α) (h : i < l.length) :
    (l.set i x).getD i d = x := by
  simp [List.getD, List.getElem?_set_self', List.getElem?_eq_getElem h]

theorem getD_set_ne {α : Type} (l : List α) {i j : Nat} (x d : α) (h : i ≠ j) :
    (l.set i x).getD j d = l.getD j d := by
  simp [List.getD, List.getElem?_set_ne h]

theorem set_of_ge {α : Type} (l : List α) {i : Nat} (x : α) (h : l.length ≤ i) :
    l.set i x = l :=
  List.set_eq_of_length_le h

theorem sum_map_set (l : List GainHeap) (i : Nat) (x : GainHeap) (h : i < l.length) :
    ((l.set i x).map List.length).sum + (l.getD i []).length
      = (l.map List.length).sum + x.length := by
  induction l generalizing i with
  | nil => simp at h
  | cons a as ih =>
    cases i with
    | zero => simp [List.set]; omega
    | succ n =>
      simp only [List.set, List.map_cons, List.sum_cons, List.getD_cons_succ]
      have := ih n (by simpa using h)
      omega

theorem length_le_sum_map (l : List GainHeap) (i : Nat) (h : i < l.length) :
    (l.getD i []).length ≤ (l.map List.length).sum := by
  induction l generalizing i with
  | nil => simp at h
  | cons a as ih =>
    cases i with
    | zero => simp
    | succ n =>
      simp only [List.getD_cons_succ, List.map_cons, List.sum_cons]
      exact le_trans (ih n (by simpa using h)) (Nat.le_add_left _ _)

/-! ## Primitive state-update lemmas -/

@[simp] theorem setQ_k (s : KWayPQ) (i : Nat) (q : GainHeap) : (setQ s i q).k = s.k := rfl

@[simp] theorem setQ_mapping (s : KWayPQ) (i : Nat) (q : GainHeap) :
    (setQ s i q).mapping = s.mapping := rfl

@[simp] theorem setQ_numEntries (s : KWayPQ) (i : Nat) (q : GainHeap) :
    (setQ s i q).numEntries = s.numEntries := rfl

@[simp] theorem setQ_numNonempty (s : KWayPQ) (i : Nat) (q : GainHeap) :
    (setQ s i q).numNonempty = s.numNonempty := rfl

@[simp] theorem setQ_numEnabled (s : KWayPQ) (i : Nat) (q : GainHeap) :
    (setQ s i q).numEnabled = s.numEnabled := rfl

@[simp] theorem setQ_queues_length (s : KWayPQ) (i : Nat) (q : GainHeap) :
    (setQ s i q).queues.length = s.queues.length := by
  simp [setQ]

@[simp] theorem mAt_setQ (s : KWayPQ) (i : Nat) (q : GainHeap) (j : Nat) :
    mAt (setQ s i q) j = mAt s j := rfl

theorem qAt_setQ_self (s : KWayPQ) {i : Nat} (q : GainHeap) (h : i < s.queues.length) :
    qAt (setQ s i q) i = q :=
  getD_set_self s.queues i q [] h

theorem qAt_setQ_ne (s : KWayPQ) {i j : Nat} (q : GainHeap) (h : i ≠ j) :
    qAt (setQ s i q) j = qAt s j :=
  getD_set_ne s.queues q [] h

@[simp] theorem setMPart_k (s : KWayPQ) (i p : Nat) : (setMPart s i p).k = s.k := rfl

@[simp] theorem setMPart_queues (s : KWayPQ) (i p : Nat) :
    (setMPart s i p).queues = s.queues := rfl

@[simp] theorem setMPart_numEntries (s : KWayPQ) (i p : Nat) :
    (setMPart s i p).numEntries = s.numEntries := rfl

@[simp] theorem setMPart_numNonempty (s : KWayPQ) (i p : Nat) :
    (setMPart s i p).numNonempty = s.numNonempty := rfl

@[simp] theorem setMPart_numEnabled (s : KWayPQ) (i p : Nat) :
    (setMPart s i p).numEnabled = s.numEnabled := rfl

@[simp] theorem setMPart_mapping_length (s : KWayPQ) (i p : Nat) :
    (setMPart s i p).mapping.length = s.mapping.length := by
  simp [setMPart]

@[simp] theorem qAt_setMPart (s : KWayPQ) (i p j : Nat) :
    qAt (setMPart s i p) j = qAt s j := rfl

theorem mAt_setMPart_self (s : KWayPQ) {i : Nat} (p : Nat) (h : i < s.mapping.length) :
    mAt (setMPart s i p) i = ⟨p, (mAt s i).index⟩ :=
  getD_set_self s.mapping i ⟨p, (mAt s i).index⟩ ⟨kInvalid, kInvalid⟩ h

theorem mAt_setMPart_ne (s : KWayPQ) {i j : Nat} (p : Nat) (h : i ≠ j) :
    mAt (setMPart s i p) j = mAt s j :=
  getD_set_ne s.mapping ⟨p, (mAt s i).index⟩ ⟨kInvalid, kInvalid⟩ h

theorem mAt_setMPart_index (s : KWayPQ) (i p j : Nat) :
    (mAt (setMPart s i p) j).index = (mAt s j).index := by
  by_cases hlen : i < s.mapping.length
  · by_cases hij : i = j
    · subst hij
      rw [mAt_setMPart_self s p hlen]
    · rw [mAt_setMPart_ne s p hij]
  · simp [mAt, setMPart, set_of_ge _ _ (le_of_not_lt hlen)]

@[simp] theorem setMIndex_k (s : KWayPQ) (i v : Nat) : (setMIndex s i v).k = s.k := rfl

@[simp] theorem setMIndex_queues (s : KWayPQ) (i v : Nat) :
    (setMIndex s i v).queues = s.queues := rfl

@[simp] theorem setMIndex_numEntries (s : KWayPQ) (i v : Nat) :
    (setMIndex s i v).numEntries = s.numEntries := rfl

@[simp] theorem setMIndex_numNonempty (s : KWayPQ) (i v : Nat) :
    (setMIndex s i v).numNonempty = s.numNonempty := rfl

@[simp] theorem setMIndex_numEnabled (s : KWayPQ) (i v : Nat) :
    (setMIndex s i v).numEnabled = s.numEnabled := rfl

@[simp] theorem setMIndex_mapping_length (s : KWayPQ) (i v : Nat) :
    (setMIndex s i v).mapping.length = s.mapping.length := by
  simp [setMIndex]

@[simp] theorem qAt_setMIndex (s : KWayPQ) (i v j : Nat) :
    qAt (setMIndex s i v) j = qAt s j := rfl

theorem mAt_setMIndex_self (s : KWayPQ) {i : Nat} (v : Nat) (h : i < s.mapping.length) :
    mAt (setMIndex s i v) i = ⟨(mAt s i).part, v⟩ :=
  getD_set_self s.mapping i ⟨(mAt s i).part, v⟩ ⟨kInvalid, kInvalid⟩ h

theorem mAt_setMIndex_ne (s : KWayPQ) {i j : Nat} (v : Nat) (h : i ≠ j) :
    mAt (setMIndex s i v) j = mAt s j :=
  getD_set_ne s.mapping ⟨(mAt s i).part, v⟩ ⟨kInvalid, kInvalid⟩ h

theorem mAt_setMIndex_part (s : KWayPQ) (i v j : Nat) :
    (mAt (setMIndex s i v) j).part = (mAt s j).part := by
  by_cases hlen : i < s.mapping.length
  · by_cases hij : i = j
    · subst hij
      rw [mAt_setMIndex_self s v hlen]
    · rw [mAt_setMIndex_ne s v hij]
  · simp [mAt, setMIndex, set_of_ge _ _ (le_of_not_lt hlen)]

/-! ## swapQ characterization -/

/-- The situation in which KWayPriorityQueue::swap is invoked: two valid slot
positions whose parts are valid and whose back-pointers are consistent. -/
def SwapOK (s : KWayPQ) (a b : Nat) : Prop :=
  s.queues.length = s.k ∧ s.mapping.length = s.k + 1 ∧
  a < s.k ∧ b < s.k ∧
  (mAt s a).part < s.k ∧ (mAt s b).part < s.k ∧
  (mAt s ((mAt s a).part)).index = a ∧ (mAt s ((mAt s b).part)).index = b

@[simp] theorem swapQ_k (s : KWayPQ) (a b : Nat) : (swapQ s a b).k = s.k := rfl

@[simp] theorem swapQ_numEntries (s : KWayPQ) (a b : Nat) :
    (swapQ s a b).numEntries = s.numEntries := rfl

@[simp] theorem swapQ_numNonempty (s : KWayPQ) (a b : Nat) :
    (swapQ s a b).numNonempty = s.numNonempty := rfl

@[simp] theorem swapQ_numEnabled (s : KWayPQ) (a b : Nat) :
    (swapQ s a b).numEnabled = s.numEnabled := rfl

@[simp] theorem swapQ_queues_length (s : KWayPQ) (a b : Nat) :
    (swapQ s a b).queues.length = s.queues.length := by
  simp [swapQ, setQ, setMPart, setMIndex]

@[simp] theorem swapQ_mapping_length (s : KWayPQ) (a b : Nat) :
    (swapQ s a b).mapping.length = s.mapping.length := by
  simp [swapQ, setQ, setMPart, setMIndex]

/-- The sub-queues after a swap: positions a and b exchanged. -/
theorem swapQ_qAt (s : KWayPQ) {a b : Nat} (h : SwapOK s a b) (j : Nat) :
    qAt (swapQ s a b) j =
      if j = b then qAt s a else if j = a then qAt s b else qAt s j := by
  obtain ⟨hlq, hlm, ha, hb, hpa, hpb, hia, hib⟩ := h
  have ha' : a < s.queues.length := by omega
  have hb' : b < s.queues.length := by omega
  show qAt (setMIndex (setMIndex _ _ _) _ _) j = _
  rw [qAt_setMIndex, qAt_setMIndex, qAt_setMPart, qAt_setMPart]
  by_cases hjb : j = b
  · subst hjb
    rw [qAt_setQ_self _ _ (by simpa using hb')]
    simp
  · rw [qAt_setQ_ne _ _ (fun hh => hjb hh.symm)]
    by_cases hja : j = a
    · subst hja
      rw [qAt_setQ_self _ _ ha']
      simp [hjb]
    · rw [qAt_setQ_ne _ _ (fun hh => hja hh.symm)]
      simp [hja, hjb]

/-- The mapping after a swap: the part fields of positions a and b are
exchanged, and the index fields of the slots of the two parts point at the
exchanged positions. -/
theorem swapQ_mAt (s : KWayPQ) {a b : Nat} (h : SwapOK s a b) (j : Nat) :
    mAt (swapQ s a b) j =
      ⟨if j = b then (mAt s a).part else if j = a then (mAt s b).part else (mAt s j).part,
       if j = (mAt s a).part then b else if j = (mAt s b).part then a
         else (mAt s j).index⟩ := by
  obtain ⟨hlq, hlm, ha, hb, hpa, hpb, hia, hib⟩ := h
  have ha' : a < s.mapping.length := by omega
  have hb' : b < s.mapping.length := by omega
  have hpa' : (mAt s a).part < s.mapping.length := by omega
  have hpb' : (mAt s b).part < s.mapping.length := by omega
  have hab : a = b ↔ (mAt s a).part = (mAt s b).part := by
    constructor
    · intro hh; rw [hh]
    · intro hh
      rw [← hia, hh, hib]
  -- the intermediate state after the two queue writes and the two part writes
  have hq : ∀ i q j, mAt (setQ s i q) j = mAt s j := fun _ _ _ => rfl
  -- reduce the let-chain of swapQ
  show mAt (setMIndex (setMIndex _ _ _) _ _) j = _
  -- name the states
  set s1 := setQ (setQ s a (qAt s b)) b (qAt s a) with hs1
  have hm1 : ∀ j, mAt s1 j = mAt s j := fun _ => rfl
  have hl1 : s1.mapping.length = s.mapping.length := rfl
  set s2 := setMPart (setMPart s1 a ((mAt s1 b).part)) b ((mAt s1 a).part) with hs2
  have hl2 : s2.mapping.length = s.mapping.length := by
    rw [hs2]; simp [hl1]
  have h2part : ∀ j, (mAt s2 j).part =
      (if j = b then (mAt s a).part else if j = a then (mAt s b).part
        else (mAt s j).part) := by
    intro j
    rw [hs2]
    by_cases hjb : j = b
    · subst hjb
      rw [mAt_setMPart_self _ _ (by simpa [hl1] using hb'), hm1]
      simp
    · rw [mAt_setMPart_ne _ _ (fun hh => hjb hh.symm)]
      by_cases hja : j = a
      · subst hja
        rw [mAt_setMPart_self _ _ (by simpa [hl1] using ha'), hm1]
        simp [hjb]
      · rw [mAt_setMPart_ne _ _ (fun hh => hja hh.symm), hm1]
        simp [hja, hjb]
  have h2idx : ∀ j, (mAt s2 j).index = (mAt s j).index := by
    intro j
    rw [hs2, mAt_setMPart_index, mAt_setMPart_index, hm1]
  have hta : (mAt s2 a).part = (mAt s b).part := by
    rw [h2part]
    by_cases hab' : a = b
    · subst hab'; simp
    · simp [hab']
  have htb : (mAt s2 b).part = (mAt s a).part := by
    rw [h2part]; simp
  have hva : (mAt s2 ((mAt s b).part)).index = b := by
    rw [h2idx]; exact hib
  have hvb : (mAt s2 ((mAt s a).part)).index = a := by
    rw [h2idx]; exact hia
  -- now the final two index writes
  rw [hta, htb, hva, hvb]
  -- goal: mAt (setMIndex (setMIndex s2 pb a) pa b) j = ...
  have hfpart : (mAt (setMIndex (setMIndex s2 ((mAt s b).part) a) ((mAt s a).part) b) j).part
      = (mAt s2 j).part := by
    rw [mAt_setMIndex_part, mAt_setMIndex_part]
  have hfidx : (mAt (setMIndex (setMIndex s2 ((mAt s b).part) a) ((mAt s a).part) b) j).index
      = (if j = (mAt s a).part then b else if j = (mAt s b).part then a
          else (mAt s j).index) := by
    by_cases hjpa : j = (mAt s a).part
    · subst hjpa
      rw [mAt_setMIndex_self _ _ (by simp [hl2]; omega)]
      simp
    · rw [mAt_setMIndex_ne _ _ (fun hh => hjpa hh.symm)]
      by_cases hjpb : j = (mAt s b).part
      · subst hjpb
        rw [mAt_setMIndex_self _ _ (by simp [hl2]; omega)]
        simp [hjpa]
      · rw [mAt_setMIndex_ne _ _ (fun hh => hjpb hh.symm), h2idx]
        simp [hjpa, hjpb]
  have : mAt (setMIndex (setMIndex s2 ((mAt s b).part) a) ((mAt s a).part) b) j
      = ⟨(mAt (setMIndex (setMIndex s2 ((mAt s b).part) a) ((mAt s a).part) b) j).part,
         (mAt (setMIndex (setMIndex s2 ((mAt s b).part) a) ((mAt s a).part) b) j).index⟩ := rfl
  rw [this, hfpart, hfidx, h2part]

/-! ## Well-formedness preservation -/

theorem kInvalid_eq : kInvalid = 18446744073709551615 := by norm_num [kInvalid]

/-- Under well-formedness, a valid part without a slot forces a free slot:
the slot positions inject into the parts, and a part with an invalid index is
not in the image. -/
theorem numNonempty_lt_k_of_unused {s : KWayPQ} (h : KWayWF s) {p : Nat}
    (hp : p < s.k) (hinv : (mAt s p).index = kInvalid) : s.numNonempty < s.k := by
  obtain ⟨hk, hlq, hlm, hen, hnn, hpos, htail, hpart, hcnt⟩ := h
  rcases Nat.lt_or_ge s.numNonempty s.k with hlt | hge
  · exact hlt
  exfalso
  have heq : s.numNonempty = s.k := le_antisymm hnn hge
  have hveq : ∀ i, i < s.k → (mAt s i).part < s.k ∧ (mAt s ((mAt s i).part)).index = i := by
    intro i hi
    have := hpos i (by omega)
    exact ⟨this.1, this.2.1⟩
  have hinj : Function.Injective
      (fun i : Fin s.k => (⟨(mAt s i.val).part, (hveq i.val i.isLt).1⟩ : Fin s.k)) := by
    intro i j hij
    have h1 := (hveq i.val i.isLt).2
    have h2 := (hveq j.val j.isLt).2
    have hpq : (mAt s i.val).part = (mAt s j.val).part := congrArg Fin.val hij
    apply Fin.ext
    rw [← h1, hpq, h2]
  have hsurj := Finite.injective_iff_surjective.mp hinj
  obtain ⟨i, hi⟩ := hsurj ⟨p, hp⟩
  have hip : (mAt s i.val).part = p := congrArg Fin.val hi
  have hidx := (hveq i.val i.isLt).2
  rw [hip, hinv] at hidx
  have hik : i.val < s.k := i.isLt
  rw [kInvalid_eq] at *
  omega


@[simp] theorem setCounters_k (s : KWayPQ) (a b c : Nat) : (setCounters s a b c).k = s.k := rfl

@[simp] theorem setCounters_queues (s : KWayPQ) (a b c : Nat) :
    (setCounters s a b c).queues = s.queues := rfl

@[simp] theorem setCounters_mapping (s : KWayPQ) (a b c : Nat) :
    (setCounters s a b c).mapping = s.mapping := rfl

@[simp] theorem setCounters_numEntries (s : KWayPQ) (a b c : Nat) :
    (setCounters s a b c).numEntries = a := rfl

@[simp] theorem setCounters_numNonempty (s : KWayPQ) (a b c : Nat) :
    (setCounters s a b c).numNonempty = b := rfl

@[simp] theorem setCounters_numEnabled (s : KWayPQ) (a b c : Nat) :
    (setCounters s a b c).numEnabled = c := rfl

@[simp] theorem mAt_setCounters (s : KWayPQ) (a b c j : Nat) :
    mAt (setCounters s a b c) j = mAt s j := rfl

@[simp] theorem qAt_setCounters (s : KWayPQ) (a b c j : Nat) :
    qAt (setCounters s a b c) j = qAt s j := rfl

/-! ## Operation normal forms -/

theorem kwayInsert_fresh_eq (s : KWayPQ) {p : Nat}
    (hidx : (mAt s p).index = kInvalid) (id : Nat) (key : Int) :
    kwayInsert s id p key =
      setCounters
        (setQ (setCounters (setMIndex (setMPart s s.numNonempty p) p s.numNonempty)
            s.numEntries (s.numNonempty + 1) s.numEnabled)
          s.numNonempty (heapPush (qAt s s.numNonempty) id key))
        (s.numEntries + 1) (s.numNonempty + 1) s.numEnabled := by
  have hb : ((mAt s p).index == kInvalid) = true := by simp [hidx]
  simp only [kwayInsert, hb, if_true]
  rfl

theorem kwayInsert_old_eq (s : KWayPQ) {p : Nat}
    (hidx : (mAt s p).index ≠ kInvalid) (id : Nat) (key : Int) :
    kwayInsert s id p key =
      setCounters (setQ s ((mAt s p).index) (heapPush (qAt s ((mAt s p).index)) id key))
        (s.numEntries + 1) s.numNonempty s.numEnabled := by
  have hb : ((mAt s p).index == kInvalid) = false := by simpa using hidx
  simp only [kwayInsert, hb, Bool.false_eq_true, if_false]
  rfl

theorem kwayEnablePart_eq (s : KWayPQ) {p : Nat}
    (h : (!(isUnusedB s p) && !(isEnabledB s p)) = true) :
    kwayEnablePart s p =
      setCounters (swapQ s ((mAt s p).index) s.numEnabled)
        s.numEntries s.numNonempty (s.numEnabled + 1) := by
  simp only [kwayEnablePart, h, if_true]
  rfl

theorem kwayEnablePart_noop (s : KWayPQ) {p : Nat}
    (h : (!(isUnusedB s p) && !(isEnabledB s p)) = false) :
    kwayEnablePart s p = s := by
  simp only [kwayEnablePart, h, Bool.false_eq_true, if_false]

theorem kwayDisablePart_eq (s : KWayPQ) {p : Nat} (h : isEnabledB s p = true) :
    kwayDisablePart s p =
      swapQ (setCounters s s.numEntries s.numNonempty (s.numEnabled - 1))
        ((mAt s p).index) (s.numEnabled - 1) := by
  simp only [kwayDisablePart, h, if_true]

theorem kwayDisablePart_noop (s : KWayPQ) {p : Nat} (h : isEnabledB s p = false) :
    kwayDisablePart s p = s := by
  simp only [kwayDisablePart, h, Bool.false_eq_true, if_false]

theorem kwayUpdateKey_eq (s : KWayPQ) (id p : Nat) (key : Int) :
    kwayUpdateKey s id p key =
      setQ s ((mAt s p).index) (heapUpdateKey id key (qAt s ((mAt s p).index))) := rfl

theorem relocateEmptied_eq (s : KWayPQ) (p : Nat) :
    relocateEmptied s p =
      (let sA := setCounters s s.numEntries (s.numNonempty - 1) (s.numEnabled - 1)
       let sB := swapQ sA ((mAt s p).index) (s.numEnabled - 1)
       markUnused (swapQ sB ((mAt sB p).index) (s.numNonempty - 1)) p) := rfl

theorem markUnused_eq (s : KWayPQ) (p : Nat) :
    markUnused s p = setMIndex (setMPart s ((mAt s p).index) kInvalid) p kInvalid := rfl

theorem kwayDeleteMax_eq (s : KWayPQ) {mi : Nat} {e : Nat × Int}
    (hmi : maxIndex s = some mi) (htop : heapTop? (qAt s mi) = some e) :
    kwayDeleteMax s =
      (some (e.1, e.2, (mAt s mi).part),
        let s1 := setQ s mi (heapPop (qAt s mi))
        let s2 := if (qAt s1 mi).isEmpty then relocateEmptied s1 ((mAt s mi).part) else s1
        setCounters s2 (s2.numEntries - 1) s2.numNonempty s2.numEnabled) := by
  simp only [kwayDeleteMax, hmi, htop]

theorem kwayDeleteMaxFromPartition_eq (s : KWayPQ) {p : Nat} {e : Nat × Int}
    (htop : heapTop? (qAt s ((mAt s p).index)) = some e) :
    kwayDeleteMaxFromPartition s p =
      (some e,
        let s1 := setQ s ((mAt s p).index) (heapPop (qAt s ((mAt s p).index)))
        let s2 := if (qAt s1 ((mAt s p).index)).isEmpty then relocateEmptied s1 p else s1
        setCounters s2 (s2.numEntries - 1) s2.numNonempty s2.numEnabled) := by
  simp only [kwayDeleteMaxFromPartition, htop]

theorem kwayRemove_eq (s : KWayPQ) (id p : Nat) :
    kwayRemove s id p =
      (let s1 := setQ s ((mAt s p).index) (heapRemoveId id (qAt s ((mAt s p).index)))
       let s2 :=
         if (qAt s1 ((mAt s p).index)).isEmpty then
           let sA :=
             if isEnabledB s1 p then
               swapQ (setCounters s1 s1.numEntries s1.numNonempty (s1.numEnabled - 1))
                 ((mAt s1 p).index) (s1.numEnabled - 1)
             else s1
           let sB := setQ sA ((mAt sA p).index) []
           let sC := swapQ (setCounters sB sB.numEntries (sB.numNonempty - 1) sB.numEnabled)
             ((mAt sB p).index) (sB.numNonempty - 1)
           markUnused sC p
         else s1
       setCounters s2 (s2.numEntries - 1) s2.numNonempty s2.numEnabled) := rfl

/-- The shared tail of deleteMax, deleteMaxFromPartition and remove: with the
part's emptied sub-queue sitting at a slot outside the (already shrunk)
enabled range, swapping it to the last nonempty slot and marking the part
unused restores the slot layout invariants. -/
theorem retire_spec (X : KWayPQ) (part : Nat) (R : KWayPQ)
    (hR : R = markUnused (swapQ X ((mAt X part).index) X.numNonempty) part)
    (hlq : X.queues.length = X.k) (hlm : X.mapping.length = X.k + 1)
    (hkinv : X.k < kInvalid)
    (hnk : X.numNonempty < X.k)
    (hpart : part < X.k)
    (hjn : (mAt X part).index ≤ X.numNonempty)
    (hje : X.numEnabled ≤ (mAt X part).index)
    (hjq : qAt X ((mAt X part).index) = [])
    (hposf : ∀ i, i ≤ X.numNonempty →
      (mAt X i).part < X.k ∧ (mAt X ((mAt X i).part)).index = i ∧
        (i ≠ (mAt X part).index → qAt X i ≠ []))
    (htailf : ∀ i, i < X.k → X.numNonempty + 1 ≤ i → qAt X i = [])
    (hpartf : ∀ p, p < X.k → (mAt X p).index = kInvalid ∨
      ((mAt X p).index ≤ X.numNonempty ∧ (mAt X ((mAt X p).index)).part = p)) :
    R.k = X.k ∧
    R.queues.length = X.queues.length ∧
    R.mapping.length = X.mapping.length ∧
    R.numEntries = X.numEntries ∧
    R.numNonempty = X.numNonempty ∧
    R.numEnabled = X.numEnabled ∧
    (mAt R part).index = kInvalid ∧
    (∀ i, i < X.numNonempty →
      (mAt R i).part < X.k ∧ (mAt R ((mAt R i).part)).index = i ∧ qAt R i ≠ []) ∧
    (∀ i, i < X.k → X.numNonempty ≤ i → qAt R i = []) ∧
    (∀ p, p < X.k → p ≠ part → (mAt X p).index = kInvalid →
      (mAt R p).index = kInvalid) ∧
    (∀ p, p < X.k → p ≠ part → (mAt X p).index ≠ kInvalid →
      (mAt R p).index < X.numNonempty ∧
      (mAt R ((mAt R p).index)).part = p ∧
      qAt R ((mAt R p).index) = qAt X ((mAt X p).index) ∧
      ((mAt R p).index < X.numEnabled ↔ (mAt X p).index < X.numEnabled)) ∧
    (R.queues.map List.length).sum = (X.queues.map List.length).sum := by
  have hkI : kInvalid = 18446744073709551615 := kInvalid_eq
  set j := (mAt X part).index with hjdef
  set n := X.numNonempty with hndef
  have hjk : j < X.k := lt_of_le_of_lt hjn hnk
  have hjni : j ≠ kInvalid := by omega
  have hjp : (mAt X j).part = part := by
    rcases hpartf part hpart with h | h
    · exact absurd h hjni
    · exact h.2
  obtain ⟨hpnk, hpn_idx, hpn_q⟩ := hposf n (le_refl n)
  set pn := (mAt X n).part with hpndef
  have hOK : SwapOK X j n := by
    refine ⟨hlq, hlm, hjk, hnk, ?_, hpnk, ?_, hpn_idx⟩
    · rw [hjp]; exact hpart
    · rw [hjp, ← hjdef]
  -- swap facts
  have hq : ∀ i, qAt (swapQ X j n) i =
      if i = n then qAt X j else if i = j then qAt X n else qAt X i :=
    fun i => swapQ_qAt X hOK i
  have hm : ∀ i, mAt (swapQ X j n) i =
      ⟨if i = n then part else if i = j then pn else (mAt X i).part,
       if i = part then n else if i = pn then j else (mAt X i).index⟩ := by
    intro i
    rw [swapQ_mAt X hOK i, hjp]
  have hSidx : (mAt (swapQ X j n) part).index = n := by rw [hm]; simp
  -- normal form of R
  have hRe : R = setMIndex (setMPart (swapQ X j n) n kInvalid) part kInvalid := by
    rw [hR, markUnused_eq, hSidx]
  have hlmS : (swapQ X j n).mapping.length = X.k + 1 := by
    rw [swapQ_mapping_length, hlm]
  -- accessor characterizations of R
  have hRpart : ∀ i, (mAt R i).part =
      if i = n then kInvalid else (mAt (swapQ X j n) i).part := by
    intro i
    rw [hRe, mAt_setMIndex_part]
    by_cases hin : i = n
    · subst hin
      rw [mAt_setMPart_self _ _ (by omega)]
      simp
    · rw [mAt_setMPart_ne _ _ (fun hh => hin hh.symm)]
      simp [hin]
  have hRidx : ∀ q, (mAt R q).index =
      if q = part then kInvalid else (mAt (swapQ X j n) q).index := by
    intro q
    rw [hRe]
    by_cases hqp : q = part
    · subst hqp
      rw [mAt_setMIndex_self _ _ (by simp [hlmS]; omega)]
      simp
    · rw [mAt_setMIndex_ne _ _ (fun hh => hqp hh.symm), mAt_setMPart_index]
      simp [hqp]
  have hqR : ∀ i, qAt R i =
      if i = n then qAt X j else if i = j then qAt X n else qAt X i := by
    intro i
    rw [hRe]
    show qAt (swapQ X j n) i = _
    exact hq i
  refine ⟨by rw [hRe]; simp, by rw [hRe]; simp, by rw [hRe]; simp [hlmS, hlm],
    by rw [hRe]; simp, by rw [hRe]; simp, by rw [hRe]; simp, ?_, ?_, ?_, ?_, ?_, ?_⟩
  · -- part is unused
    rw [hRidx]
    simp
  · -- slots below n
    intro i hi
    have hin : i ≠ n := by omega
    by_cases hij : i = j
    · -- slot j now holds pn
      subst hij
      have hpn_ne_part : pn ≠ part := by
        intro hh
        have h2 := hpn_idx
        rw [hh, ← hjdef] at h2
        omega
      have hRjpart : (mAt R j).part = pn := by
        rw [hRpart]
        simp [hin, hm]
      refine ⟨?_, ?_, ?_⟩
      · rw [hRjpart]; exact hpnk
      · rw [hRjpart, hRidx]
        simp [hpn_ne_part, hm]
      · rw [hqR]
        simp only [hin, if_false, if_pos rfl]
        exact hpn_q (by omega)
    · -- slot i keeps its part
      obtain ⟨hpik, hpi_idx, hpi_q⟩ := hposf i (by omega)
      set pi := (mAt X i).part with hpidef
      have hpi_ne_part : pi ≠ part := by
        intro hh
        rw [hh, ← hjdef] at hpi_idx
        exact hij hpi_idx.symm
      have hpi_ne_pn : pi ≠ pn := by
        intro hh
        rw [hh, hpn_idx] at hpi_idx
        omega
      have hRipart : (mAt R i).part = pi := by
        rw [hRpart]
        simp [hin, hij, hm]
      refine ⟨?_, ?_, ?_⟩
      · rw [hRipart]; exact hpik
      · rw [hRipart, hRidx]
        simp [hpi_ne_part, hm, hpi_ne_pn, hpi_idx]
      · rw [hqR]
        simp only [hin, hij, if_false]
        exact hpi_q hij
  · -- tail slots are empty
    intro i hik hi
    rw [hqR]
    by_cases hin : i = n
    · simp [hin, hjq]
    · have hij : i ≠ j := by omega
      simp only [hin, hij, if_false]
      exact htailf i hik (by omega)
  · -- unused parts stay unused
    intro p hp hpp hpinv
    have hp_ne_pn : p ≠ pn := by
      intro hh
      rw [hh, hpn_idx] at hpinv
      omega
    rw [hRidx]
    simp only [hpp, if_false, hm]
    simp [hp_ne_pn, hpinv]
  · -- used parts keep their sub-queue
    intro p hp hpp hpval
    rcases hpartf p hp with h | ⟨hple, hpbk⟩
    · exact absurd h hpval
    by_cases hppn : p = pn
    · -- the part from slot n moves to slot j
      have hpidx : (mAt X p).index = n := by rw [hppn, hpn_idx]
      have hjneqn : j ≠ n := by
        intro hh
        rw [hh] at hjp
        exact hpp (by rw [hppn, hpndef, hjp])
      have hjltn : j < n := by omega
      have hnew : (mAt R p).index = j := by
        rw [hRidx]
        simp only [hpp, if_false, hm]
        simp [hppn]
      refine ⟨by rw [hnew]; omega, ?_, ?_, ?_⟩
      · rw [hnew, hRpart]
        simp [hjneqn, hm, hppn]
      · rw [hnew, hqR, hpidx]
        simp [hjneqn]
      · rw [hnew, hpidx]
        constructor
        · intro hh; omega
        · intro hh; omega
    · -- the part keeps its slot
      have hpi_lt : (mAt X p).index < n := by
        rcases Nat.lt_or_ge (mAt X p).index n with hh | hh
        · exact hh
        · exfalso
          have : (mAt X p).index = n := by omega
          rw [this] at hpbk
          exact hppn (hpbk.symm ▸ rfl)
      have hpi_ne_j : (mAt X p).index ≠ j := by
        intro hh
        rw [hh, hjp] at hpbk
        exact hpp hpbk.symm
      have hnew : (mAt R p).index = (mAt X p).index := by
        rw [hRidx]
        simp [hpp, hm, hppn]
      refine ⟨by rw [hnew]; omega, ?_, ?_, by rw [hnew]⟩
      · rw [hnew, hRpart]
        simp [show (mAt X p).index ≠ n from by omega, hm, hpi_ne_j, hpbk]
      · rw [hnew, hqR]
        simp only [show (mAt X p).index ≠ n from by omega, hpi_ne_j, if_false]
  · -- the total number of stored entries is unchanged
    have hqueues : R.queues = (X.queues.set j (qAt X n)).set n (qAt X j) := by
      rw [hRe]
      rfl
    have hqget : ∀ i, X.queues.getD i [] = qAt X i := fun _ => rfl
    have h1 := sum_map_set X.queues j (qAt X n) (by omega)
    have h2 := sum_map_set (X.queues.set j (qAt X n)) n (qAt X j)
      (by simp; omega)
    rw [hqget] at h1
    rw [hqueues]
    by_cases hjn' : j = n
    · have hg : (X.queues.set j (qAt X n)).getD n [] = qAt X n := by
        rw [hjn']
        exact getD_set_self _ _ _ _ (by omega)
      rw [hg] at h2
      rw [hjn'] at h1 h2 ⊢
      omega
    · have hg : (X.queues.set j (qAt X n)).getD n [] = qAt X n := by
        exact getD_set_ne _ _ _ hjn'
      rw [hg] at h2
      omega

theorem getD_replicate_self {α : Type} (n i : Nat) (a : α) :
    (List.replicate n a).getD i a = a := by
  rcases Nat.lt_or_ge i n with h | h
  · simp [List.getD, List.getElem?_replicate, h]
  · have hnone : (List.replicate n a)[i]? = none :=
      List.getElem?_eq_none (by simpa using h)
    simp [List.getD, hnone]

/-- The initial state is well-formed. -/
theorem kwayInit_wf {k : Nat} (hk : k < kInvalid) : KWayWF (kwayInit k) := by
  refine ⟨hk, by simp [kwayInit], by simp [kwayInit], le_refl 0, Nat.zero_le k,
    ?_, ?_, ?_, ?_⟩
  · intro i hi
    simp [kwayInit] at hi
  · intro i _ _
    exact getD_replicate_self k i []
  · intro p _
    left
    show ((List.replicate (k + 1) (⟨kInvalid, kInvalid⟩ : IPM)).getD p
      ⟨kInvalid, kInvalid⟩).index = kInvalid
    rw [getD_replicate_self]
  · show 0 = ((List.replicate k ([] : GainHeap)).map List.length).sum
    simp

/-- insert (with a valid part, as the C++ code asserts) preserves
well-formedness. -/
theorem kwayInsert_wf {s : KWayPQ} (h : KWayWF s) {p : Nat} (hp : p < s.k)
    (id : Nat) (key : Int) : KWayWF (kwayInsert s id p key) := by
  have hWF := h
  obtain ⟨hk, hlq, hlm, hen, hnn, hpos, htail, hpart, hcnt⟩ := h
  have hk' : s.k < 18446744073709551615 := by rw [← kInvalid_eq]; exact hk
  by_cases hidx : (mAt s p).index = kInvalid
  · -- fresh slot case
    have hnk : s.numNonempty < s.k := numNonempty_lt_k_of_unused hWF hp hidx
    rw [kwayInsert_fresh_eq s hidx id key]
    set sB := setMIndex (setMPart s s.numNonempty p) p s.numNonempty with hsB
    have hBk : sB.k = s.k := rfl
    have hBq : sB.queues = s.queues := rfl
    have hBpart : ∀ j, (mAt sB j).part
        = if j = s.numNonempty then p else (mAt s j).part := by
      intro j
      rw [hsB, mAt_setMIndex_part]
      by_cases hj : j = s.numNonempty
      · subst hj
        rw [mAt_setMPart_self _ _ (by omega)]
        simp
      · rw [mAt_setMPart_ne _ _ (fun hh => hj hh.symm)]
        simp [hj]
    have hBidx : ∀ q, (mAt sB q).index
        = if q = p then s.numNonempty else (mAt s q).index := by
      intro q
      rw [hsB]
      by_cases hq : q = p
      · subst hq
        rw [mAt_setMIndex_self _ _ (by simp; omega)]
        simp
      · rw [mAt_setMIndex_ne _ _ (fun hh => hq hh.symm), mAt_setMPart_index]
        simp [hq]
    have hslot_ne : ∀ i, i < s.numNonempty → (mAt s i).part ≠ p := by
      intro i hi hip
      have h2 := (hpos i hi).2.1
      rw [hip, hidx, kInvalid_eq] at h2
      omega
    have hqnn : qAt s s.numNonempty = [] := htail s.numNonempty (by omega) (by omega)
    refine ⟨by simpa [hBk] using hk, by simpa [hBq] using hlq,
      by simp [hBk]; rw [hsB]; simpa using hlm, by simp; omega,
      by simp [hBk]; omega, ?_, ?_, ?_, ?_⟩
    · intro i hi
      simp only [setCounters_numNonempty, mAt_setCounters, mAt_setQ, qAt_setCounters,
        setCounters_k, setQ_k, hBk] at hi ⊢
      by_cases hin : i = s.numNonempty
      · subst hin
        refine ⟨?_, ?_, ?_⟩
        · rw [hBpart]
          simpa using hp
        · rw [hBpart]
          simp only [if_pos rfl]
          rw [hBidx]
          simp
        · rw [qAt_setQ_self _ _ (by simp [hBq, hlq]; omega)]
          simp [heapPush]
      · have hi' : i < s.numNonempty := by omega
        obtain ⟨h1, h2, h3⟩ := hpos i hi'
        refine ⟨?_, ?_, ?_⟩
        · rw [hBpart]
          simp [hin, h1]
        · rw [hBpart]
          simp only [hin, if_false]
          rw [hBidx]
          simp [hslot_ne i hi', h2]
        · rw [qAt_setQ_ne _ _ (fun hh => hin hh.symm)]
          simpa [hsB] using h3
    · intro i hik hi
      simp only [setCounters_numNonempty, setCounters_k, setQ_k, hBk] at hik hi
      have hin : i ≠ s.numNonempty := by omega
      show qAt _ i = []
      simp only [qAt_setCounters]
      rw [qAt_setQ_ne _ _ (fun hh => hin hh.symm)]
      show qAt s i = []
      exact htail i hik (by omega)
    · intro q hq
      simp only [setCounters_k, setQ_k, hBk] at hq
      simp only [mAt_setCounters, mAt_setQ, setCounters_numNonempty]
      by_cases hqp : q = p
      · subst hqp
        right
        rw [hBidx]
        rw [if_pos rfl]
        exact ⟨by omega, by rw [hBpart]; simp⟩
      · rw [hBidx]
        simp only [hqp, if_false]
        rcases hpart q hq with h1 | ⟨h1, h2⟩
        · left; exact h1
        · right
          refine ⟨by omega, ?_⟩
          rw [hBpart]
          have hne : (mAt s q).index ≠ s.numNonempty := by omega
          simp [hne, h2]
    · show s.numEntries + 1 = _
      have hsum := sum_map_set s.queues s.numNonempty
        (heapPush (qAt s s.numNonempty) id key) (by omega)
      rw [show s.queues.getD s.numNonempty [] = qAt s s.numNonempty from rfl,
        hqnn] at hsum
      simp only [heapPush, List.length_cons, List.length_nil] at hsum
      show _ = (((setQ (setCounters sB s.numEntries (s.numNonempty + 1)
        s.numEnabled) s.numNonempty (heapPush (qAt s s.numNonempty) id key)).queues).map
          List.length).sum
      simp only [setQ, setCounters_queues, hBq]
      rw [hqnn]
      simp only [heapPush] at *
      omega
  · -- existing slot case
    rcases hpart p hp with h1 | ⟨hlt, hbk⟩
    · exact absurd h1 hidx
    rw [kwayInsert_old_eq s hidx id key]
    refine ⟨by simpa using hk, by simpa using hlq, by simpa using hlm,
      by simpa using hen, by simpa using hnn, ?_, ?_, ?_, ?_⟩
    · intro i hi
      simp only [setCounters_numNonempty, setQ_numNonempty] at hi
      obtain ⟨h1, h2, h3⟩ := hpos i hi
      simp only [mAt_setCounters, mAt_setQ, qAt_setCounters]
      refine ⟨h1, h2, ?_⟩
      by_cases hii : i = (mAt s p).index
      · subst hii
        rw [qAt_setQ_self _ _ (by omega)]
        simp [heapPush]
      · rw [qAt_setQ_ne _ _ (fun hh => hii hh.symm)]
        exact h3
    · intro i hik hi
      simp only [setCounters_k, setQ_k, setCounters_numNonempty, setQ_numNonempty] at hik hi
      show qAt _ i = []
      simp only [qAt_setCounters]
      have hii : i ≠ (mAt s p).index := by omega
      rw [qAt_setQ_ne _ _ (fun hh => hii hh.symm)]
      exact htail i hik hi
    · intro q hq
      simp only [setCounters_k, setQ_k] at hq
      simp only [mAt_setCounters, mAt_setQ, setCounters_numNonempty, setQ_numNonempty]
      exact hpart q hq
    · show s.numEntries + 1 = _
      have hsum := sum_map_set s.queues ((mAt s p).index)
        (heapPush (qAt s ((mAt s p).index)) id key) (by omega)
      rw [show s.queues.getD ((mAt s p).index) [] = qAt s ((mAt s p).index) from rfl]
        at hsum
      simp only [heapPush, List.length_cons] at hsum
      show _ = (((setQ s ((mAt s p).index)
        (heapPush (qAt s ((mAt s p).index)) id key)).queues).map List.length).sum
      simp only [setQ]
      simp only [heapPush] at *
      omega

/-- Swapping any two slots of the nonempty range preserves the slot layout,
the sub-queue multiset and the unused parts. -/
theorem swapQ_layout (s : KWayPQ) {a b : Nat}
    (hlq : s.queues.length = s.k) (hlm : s.mapping.length = s.k + 1)
    (hkinv : s.k < kInvalid) (hnn : s.numNonempty ≤ s.k)
    (ha : a < s.numNonempty) (hb : b < s.numNonempty)
    (hpos : ∀ i, i < s.numNonempty →
      (mAt s i).part < s.k ∧ (mAt s ((mAt s i).part)).index = i ∧ qAt s i ≠ [])
    (hpart : ∀ p, p < s.k → (mAt s p).index = kInvalid ∨
      ((mAt s p).index < s.numNonempty ∧ (mAt s ((mAt s p).index)).part = p)) :
    (∀ i, i < s.numNonempty → (mAt (swapQ s a b) i).part < s.k ∧
      (mAt (swapQ s a b) ((mAt (swapQ s a b) i).part)).index = i ∧
      qAt (swapQ s a b) i ≠ []) ∧
    (∀ i, s.numNonempty ≤ i → qAt (swapQ s a b) i = qAt s i) ∧
    (∀ p, p < s.k → (mAt (swapQ s a b) p).index = kInvalid ∨
      ((mAt (swapQ s a b) p).index < s.numNonempty ∧
        (mAt (swapQ s a b) ((mAt (swapQ s a b) p).index)).part = p)) ∧
    ((swapQ s a b).queues.map List.length).sum = (s.queues.map List.length).sum ∧
    (∀ q, (mAt s q).index = kInvalid → (mAt (swapQ s a b) q).index = kInvalid) := by
  have hkI : kInvalid = 18446744073709551615 := kInvalid_eq
  obtain ⟨hpak, hpa_bk, hqa⟩ := hpos a ha
  obtain ⟨hpbk, hpb_bk, hqb⟩ := hpos b hb
  set pa := (mAt s a).part with hpadef
  set pb := (mAt s b).part with hpbdef
  have hOK : SwapOK s a b :=
    ⟨hlq, hlm, by omega, by omega, hpak, hpbk, hpa_bk, hpb_bk⟩
  have hq : ∀ i, qAt (swapQ s a b) i =
      if i = b then qAt s a else if i = a then qAt s b else qAt s i :=
    fun i => swapQ_qAt s hOK i
  have hm : ∀ i, mAt (swapQ s a b) i =
      ⟨if i = b then pa else if i = a then pb else (mAt s i).part,
       if i = pa then b else if i = pb then a else (mAt s i).index⟩ :=
    fun i => swapQ_mAt s hOK i
  have hab_iff : a = b ↔ pa = pb :=
    ⟨fun hh => by rw [hpadef, hpbdef, hh], fun hh => by rw [← hpa_bk, hh, hpb_bk]⟩
  refine ⟨?_, ?_, ?_, ?_, ?_⟩
  · intro i hi
    by_cases hib : i = b
    · have hSpart : (mAt (swapQ s a b) i).part = pa := by
        rw [hm]
        simp [hib]
      refine ⟨by rw [hSpart]; exact hpak, ?_, ?_⟩
      · rw [hSpart, hm]
        simp [hib]
      · rw [hq]
        simpa [hib] using hqa
    · by_cases hia : i = a
      · have hanb : a ≠ b := by omega
        have hSpart : (mAt (swapQ s a b) i).part = pb := by
          rw [hm]
          simp [hia, hanb]
        refine ⟨by rw [hSpart]; exact hpbk, ?_, ?_⟩
        · rw [hSpart, hm]
          by_cases hpab : pa = pb
          · exact absurd (hab_iff.mpr hpab) hanb
          · simp [Ne.symm hpab, hia]
        · rw [hq]
          simpa [hia, hanb] using hqb
      · obtain ⟨hpik, hpi_bk, hqi⟩ := hpos i hi
        have hpi_ne_pa : (mAt s i).part ≠ pa := by
          intro hh
          rw [hh, hpa_bk] at hpi_bk
          exact hia hpi_bk.symm
        have hpi_ne_pb : (mAt s i).part ≠ pb := by
          intro hh
          rw [hh, hpb_bk] at hpi_bk
          exact hib hpi_bk.symm
        have hSpart : (mAt (swapQ s a b) i).part = (mAt s i).part := by
          rw [hm]
          simp [hia, hib]
        refine ⟨by rw [hSpart]; exact hpik, ?_, ?_⟩
        · rw [hSpart, hm]
          simp [hpi_ne_pa, hpi_ne_pb, hpi_bk]
        · rw [hq]
          simp only [hia, hib, if_false]
          exact hqi
  · intro i hi
    rw [hq]
    simp only [show i ≠ b from by omega, show i ≠ a from by omega, if_false]
  · intro p hp
    by_cases hppa : p = pa
    · right
      have hSidx : (mAt (swapQ s a b) p).index = b := by
        rw [hm]
        simp [hppa]
      refine ⟨by rw [hSidx]; omega, ?_⟩
      rw [hSidx, hm]
      simp [hppa]
    · by_cases hppb : p = pb
      · right
        have hpbna : ¬ pb = pa := fun hh => hppa (hppb.trans hh)
        have hanb' : ¬ a = b := fun hh => hpbna (hab_iff.mp hh).symm
        have hSidx : (mAt (swapQ s a b) p).index = a := by
          rw [hm]
          simp [hppb, hpbna]
        refine ⟨by rw [hSidx]; omega, ?_⟩
        rw [hSidx, hm]
        simp [hanb', hppb]
      · have hSidx : (mAt (swapQ s a b) p).index = (mAt s p).index := by
          rw [hm]
          simp [hppa, hppb]
        rcases hpart p hp with h1 | ⟨h1, h2⟩
        · left
          rw [hSidx]
          exact h1
        · right
          have hi_ne_a : (mAt s p).index ≠ a := by
            intro hh
            rw [hh] at h2
            exact hppa h2.symm
          have hi_ne_b : (mAt s p).index ≠ b := by
            intro hh
            rw [hh] at h2
            exact hppb h2.symm
          refine ⟨by rw [hSidx]; omega, ?_⟩
          rw [hSidx, hm]
          simp [hi_ne_a, hi_ne_b, h2]
  · have hqueues : (swapQ s a b).queues = (s.queues.set a (qAt s b)).set b (qAt s a) :=
      rfl
    have hqget : ∀ i, s.queues.getD i [] = qAt s i := fun _ => rfl
    have h1 := sum_map_set s.queues a (qAt s b) (by omega)
    have h2 := sum_map_set (s.queues.set a (qAt s b)) b (qAt s a) (by simp; omega)
    rw [hqget] at h1
    rw [hqueues]
    by_cases hab : a = b
    · have hg : (s.queues.set a (qAt s b)).getD b [] = qAt s b := by
        rw [hab]
        exact getD_set_self _ _ _ _ (by omega)
      rw [hg] at h2
      rw [hab] at h1 h2 ⊢
      omega
    · have hg : (s.queues.set a (qAt s b)).getD b [] = qAt s b :=
        getD_set_ne _ _ _ hab
      rw [hg] at h2
      omega
  · intro q hinv
    have hq_ne_pa : q ≠ pa := by
      intro hh
      rw [hh, hpa_bk] at hinv
      omega
    have hq_ne_pb : q ≠ pb := by
      intro hh
      rw [hh, hpb_bk] at hinv
      omega
    rw [hm]
    simp [hq_ne_pa, hq_ne_pb, hinv]

/-- In a well-formed state an unused part is never enabled. -/
theorem isEnabledB_false_of_unused {s : KWayPQ} (h : KWayWF s) {b : Nat}
    (hu : isUnusedB s b = true) : isEnabledB s b = false := by
  obtain ⟨hk, hlq, hlm, hen, hnn, hpos, htail, hpart, hcnt⟩ := h
  have hb : (mAt s b).index = kInvalid := by simpa [isUnusedB] using hu
  simp only [isEnabledB, decide_eq_false_iff_not, not_lt, hb, kInvalid_eq]
  rw [kInvalid_eq] at hk
  omega

/-- enablePart preserves well-formedness. -/
theorem kwayEnablePart_wf {s : KWayPQ} (h : KWayWF s) {p : Nat} (hp : p < s.k) :
    KWayWF (kwayEnablePart s p) := by
  have hWF := h
  obtain ⟨hk, hlq, hlm, hen, hnn, hpos, htail, hpart, hcnt⟩ := h
  by_cases hg : (!(isUnusedB s p) && !(isEnabledB s p)) = true
  · rw [kwayEnablePart_eq s hg]
    have hgu : (mAt s p).index ≠ kInvalid := by
      have := (Bool.and_eq_true _ _).mp hg |>.1
      simpa [isUnusedB] using this
    have hge : ¬ (mAt s p).index < s.numEnabled := by
      have := (Bool.and_eq_true _ _).mp hg |>.2
      simpa [isEnabledB] using this
    rcases hpart p hp with h1 | ⟨hlt, hbk⟩
    · exact absurd h1 hgu
    have hb : s.numEnabled < s.numNonempty := by omega
    obtain ⟨hpos', htailEq, hpart', hsum', hun'⟩ :=
      swapQ_layout s hlq hlm hk hnn hlt hb hpos hpart
    refine ⟨by simpa using hk, by simpa using hlq, by simpa using hlm,
      by simp; omega, by simpa using hnn, ?_, ?_, ?_, ?_⟩
    · intro i hi
      simp only [setCounters_numNonempty, swapQ_numNonempty] at hi
      simpa using hpos' i hi
    · intro i hik hi
      simp only [setCounters_k, swapQ_k, setCounters_numNonempty, swapQ_numNonempty]
        at hik hi
      show qAt _ i = []
      rw [qAt_setCounters, htailEq i hi]
      exact htail i hik hi
    · intro q hq
      simp only [setCounters_k, swapQ_k] at hq
      simpa using hpart' q hq
    · show s.numEntries = _
      rw [hcnt]
      simpa using hsum'.symm
  · rw [kwayEnablePart_noop s (by simpa using hg)]
    exact hWF

/-- disablePart preserves well-formedness. -/
theorem kwayDisablePart_wf {s : KWayPQ} (h : KWayWF s) {p : Nat} (hp : p < s.k) :
    KWayWF (kwayDisablePart s p) := by
  have hWF := h
  obtain ⟨hk, hlq, hlm, hen, hnn, hpos, htail, hpart, hcnt⟩ := h
  by_cases hg : isEnabledB s p = true
  · rw [kwayDisablePart_eq s hg]
    have hge : (mAt s p).index < s.numEnabled := by
      simpa [isEnabledB] using hg
    rcases hpart p hp with h1 | ⟨hlt, hbk⟩
    · rw [h1, kInvalid_eq] at hge
      rw [kInvalid_eq] at hk
      omega
    set X := setCounters s s.numEntries s.numNonempty (s.numEnabled - 1) with hX
    have hXqa : ∀ j, qAt X j = qAt s j := fun _ => rfl
    have haX : (mAt s p).index < X.numNonempty := by
      show (mAt s p).index < s.numNonempty
      omega
    have hbX : s.numEnabled - 1 < X.numNonempty := by
      show s.numEnabled - 1 < s.numNonempty
      omega
    have hlqX : X.queues.length = X.k := hlq
    have hlmX : X.mapping.length = X.k + 1 := hlm
    have hkX : X.k < kInvalid := hk
    have hnnX : X.numNonempty ≤ X.k := hnn
    have hposX : ∀ i, i < X.numNonempty →
        (mAt X i).part < X.k ∧ (mAt X ((mAt X i).part)).index = i ∧ qAt X i ≠ [] :=
      fun i hi => hpos i hi
    have hpartX : ∀ q, q < X.k → (mAt X q).index = kInvalid ∨
        ((mAt X q).index < X.numNonempty ∧ (mAt X ((mAt X q).index)).part = q) :=
      fun q hq => hpart q hq
    obtain ⟨hpos', htailEq, hpart', hsum', hun'⟩ :=
      swapQ_layout X hlqX hlmX hkX hnnX haX hbX hposX hpartX
    refine ⟨by simpa using hk, by simpa using hlq, by simpa using hlm,
      by show s.numEnabled - 1 ≤ s.numNonempty; omega, by simpa using hnn,
      ?_, ?_, ?_, ?_⟩
    · intro i hi
      exact hpos' i hi
    · intro i hik hi
      rw [htailEq i hi, hXqa]
      exact htail i hik hi
    · intro q hq
      exact hpart' q hq
    · show s.numEntries = _
      rw [hcnt]
      exact hsum'.symm
  · rw [kwayDisablePart_noop s (by simpa using hg)]
    exact hWF

/-- enablePart never touches an unused part. -/
theorem kwayEnablePart_unused {s : KWayPQ} (h : KWayWF s) {p : Nat} (hp : p < s.k)
    {b : Nat} (hu : isUnusedB s b = true) : isUnusedB (kwayEnablePart s p) b = true := by
  obtain ⟨hk, hlq, hlm, hen, hnn, hpos, htail, hpart, hcnt⟩ := h
  by_cases hg : (!(isUnusedB s p) && !(isEnabledB s p)) = true
  · rw [kwayEnablePart_eq s hg]
    have hgu : (mAt s p).index ≠ kInvalid := by
      have := (Bool.and_eq_true _ _).mp hg |>.1
      simpa [isUnusedB] using this
    have hge : ¬ (mAt s p).index < s.numEnabled := by
      have := (Bool.and_eq_true _ _).mp hg |>.2
      simpa [isEnabledB] using this
    rcases hpart p hp with h1 | ⟨hlt, hbk⟩
    · exact absurd h1 hgu
    have hb : s.numEnabled < s.numNonempty := by omega
    obtain ⟨hpos', htailEq, hpart', hsum', hun'⟩ :=
      swapQ_layout s hlq hlm hk hnn hlt hb hpos hpart
    have hbinv : (mAt s b).index = kInvalid := by simpa [isUnusedB] using hu
    have := hun' b hbinv
    simp only [isUnusedB]
    simp [this]
  · rw [kwayEnablePart_noop s (by simpa using hg)]
    exact hu

/-- disablePart never touches an unused part. -/
theorem kwayDisablePart_unused {s : KWayPQ} (h : KWayWF s) {p : Nat} (hp : p < s.k)
    {b : Nat} (hu : isUnusedB s b = true) : isUnusedB (kwayDisablePart s p) b = true := by
  obtain ⟨hk, hlq, hlm, hen, hnn, hpos, htail, hpart, hcnt⟩ := h
  by_cases hg : isEnabledB s p = true
  · rw [kwayDisablePart_eq s hg]
    have hge : (mAt s p).index < s.numEnabled := by
      simpa [isEnabledB] using hg
    rcases hpart p hp with h1 | ⟨hlt, hbk⟩
    · rw [h1, kInvalid_eq] at hge
      rw [kInvalid_eq] at hk
      omega
    set X := setCounters s s.numEntries s.numNonempty (s.numEnabled - 1) with hX
    have haX : (mAt s p).index < X.numNonempty := by
      show (mAt s p).index < s.numNonempty
      omega
    have hbX : s.numEnabled - 1 < X.numNonempty := by
      show s.numEnabled - 1 < s.numNonempty
      omega
    have hlqX : X.queues.length = X.k := hlq
    have hlmX : X.mapping.length = X.k + 1 := hlm
    have hkX : X.k < kInvalid := hk
    have hnnX : X.numNonempty ≤ X.k := hnn
    have hposX : ∀ i, i < X.numNonempty →
        (mAt X i).part < X.k ∧ (mAt X ((mAt X i).part)).index = i ∧ qAt X i ≠ [] :=
      fun i hi => hpos i hi
    have hpartX : ∀ q, q < X.k → (mAt X q).index = kInvalid ∨
        ((mAt X q).index < X.numNonempty ∧ (mAt X ((mAt X q).index)).part = q) :=
      fun q hq => hpart q hq
    obtain ⟨hpos', htailEq, hpart', hsum', hun'⟩ :=
      swapQ_layout X hlqX hlmX hkX hnnX haX hbX hposX hpartX
    have hbinv : (mAt X b).index = kInvalid := by simpa [isUnusedB] using hu
    have := hun' b hbinv
    simp only [isUnusedB]
    simp [this]
  · rw [kwayDisablePart_noop s (by simpa using hg)]
    exact hu

/-- updateKey (under the asserted contains precondition) preserves
well-formedness. -/
theorem kwayUpdateKey_wf {s : KWayPQ} (h : KWayWF s) {id p : Nat}
    (hlt : (mAt s p).index < s.numNonempty) (key : Int) :
    KWayWF (kwayUpdateKey s id p key) := by
  obtain ⟨hk, hlq, hlm, hen, hnn, hpos, htail, hpart, hcnt⟩ := h
  rw [kwayUpdateKey_eq]
  have hlen : (heapUpdateKey id key (qAt s ((mAt s p).index))).length
      = (qAt s ((mAt s p).index)).length := heapUpdateKey_length id key _
  refine ⟨by simpa using hk, by simpa using hlq, by simpa using hlm,
    by simpa using hen, by simpa using hnn, ?_, ?_, ?_, ?_⟩
  · intro i hi
    simp only [setQ_numNonempty] at hi
    obtain ⟨h1, h2, h3⟩ := hpos i hi
    refine ⟨by simpa using h1, by simpa using h2, ?_⟩
    by_cases hii : i = (mAt s p).index
    · subst hii
      rw [qAt_setQ_self _ _ (by omega)]
      intro hnil
      rw [hnil] at hlen
      simp at hlen
      exact h3 (List.length_eq_zero.mp hlen.symm)
    · rw [qAt_setQ_ne _ _ (fun hh => hii hh.symm)]
      exact h3
  · intro i hik hi
    simp only [setQ_k, setQ_numNonempty] at hik hi
    have hii : i ≠ (mAt s p).index := by omega
    show qAt _ i = []
    rw [qAt_setQ_ne _ _ (fun hh => hii hh.symm)]
    exact htail i hik hi
  · intro q hq
    simp only [setQ_k] at hq
    simpa using hpart q hq
  · show s.numEntries = _
    have hsum := sum_map_set s.queues ((mAt s p).index)
      (heapUpdateKey id key (qAt s ((mAt s p).index))) (by omega)
    rw [show s.queues.getD ((mAt s p).index) [] = qAt s ((mAt s p).index) from rfl,
      hlen] at hsum
    show _ = (((setQ s ((mAt s p).index) _).queues).map List.length).sum
    simp only [setQ]
    omega

/-- The foldl of maxIndex: after scanning the first n enabled slots of
nonempty queues, the accumulator holds a slot of maximal top key. -/
theorem maxIndexAcc_aux (s : KWayPQ) :
    ∀ n : Nat, (∀ i, i < n → qAt s i ≠ []) → 0 < n →
    ∃ mi key, ((List.range n).foldl
      (fun acc i =>
        match heapTop? (qAt s i) with
        | none => acc
        | some e =>
          match acc with
          | none => some (i, e.2)
          | some m => if e.2 > m.2 then some (i, e.2) else acc) none) = some (mi, key) ∧
      mi < n ∧ (heapTop? (qAt s mi)).map Prod.snd = some key ∧
      ∀ i, i < n → ∀ e ∈ qAt s i, e.2 ≤ key := by
  intro n
  induction n with
  | zero => intro _ h0; omega
  | succ m ih =>
    intro hq h0
    have hqm : qAt s m ≠ [] := hq m (by omega)
    have htopm : ∃ em, heapTop? (qAt s m) = some em := by
      cases hh : heapTop? (qAt s m) with
      | none => exact absurd ((heapTop?_eq_none_iff _).mp hh) hqm
      | some em => exact ⟨em, rfl⟩
    obtain ⟨em, hem⟩ := htopm
    rw [List.range_succ, List.foldl_append]
    by_cases hm : m = 0
    · subst hm
      refine ⟨0, em.2, ?_, by omega, by rw [hem]; rfl, ?_⟩
      · simp [List.foldl_cons, List.foldl_nil, hem]
      intro i hi e he
      have hi0 : i = 0 := by omega
      subst hi0
      exact heapTop?_ge hem e he
    · obtain ⟨mi, key, hfold, hmi, htop, hbound⟩ :=
        ih (fun i hi => hq i (by omega)) (by omega)
      rw [List.foldl_cons, List.foldl_nil, hfold, hem]
      by_cases hgt : em.2 > key
      · refine ⟨m, em.2, by simp [hgt], by omega, by rw [hem]; rfl, ?_⟩
        intro i hi e he
        by_cases him : i = m
        · subst him
          exact heapTop?_ge hem e he
        · exact le_trans (hbound i (by omega) e he) (le_of_lt hgt)
      · refine ⟨mi, key, by simp [hgt], by omega, htop, ?_⟩
        intro i hi e he
        by_cases him : i = m
        · subst him
          exact le_trans (heapTop?_ge hem e he) (not_lt.mp hgt)
        · exact hbound i (by omega) e he

/-- maxIndex of a well-formed state with an enabled slot: the selected slot
is enabled and its top key dominates every entry of every enabled slot. -/
theorem maxIndex_spec {s : KWayPQ} (h : KWayWF s) (h0 : 0 < s.numEnabled) :
    ∃ mi key, maxIndexAcc s = some (mi, key) ∧ maxIndex s = some mi ∧
      mi < s.numEnabled ∧ (heapTop? (qAt s mi)).map Prod.snd = some key ∧
      ∀ i, i < s.numEnabled → ∀ e ∈ qAt s i, e.2 ≤ key := by
  obtain ⟨hk, hlq, hlm, hen, hnn, hpos, htail, hpart, hcnt⟩ := h
  have hq : ∀ i, i < s.numEnabled → qAt s i ≠ [] := by
    intro i hi
    exact (hpos i (by omega)).2.2
  obtain ⟨mi, key, hfold, hmi, htop, hbound⟩ := maxIndexAcc_aux s s.numEnabled hq h0
  refine ⟨mi, key, hfold, ?_, hmi, htop, hbound⟩
  rw [maxIndex, show maxIndexAcc s = some (mi, key) from hfold]
  rfl


/-- Mapping-only variant of swapQ_layout: swapping two slots of a prefix
0..m of valid back-pointed slots preserves the part/index bijection, the
unused parts and the sub-queue length sum, regardless of the sub-queue
contents. -/
theorem swapQ_maplayout (s : KWayPQ) {a b m : Nat}
    (hlq : s.queues.length = s.k) (hlm : s.mapping.length = s.k + 1)
    (hkinv : s.k < kInvalid) (hmk : m < s.k)
    (ha : a ≤ m) (hb : b ≤ m)
    (hpos : ∀ i, i ≤ m →
      (mAt s i).part < s.k ∧ (mAt s ((mAt s i).part)).index = i)
    (hpart : ∀ p, p < s.k → (mAt s p).index = kInvalid ∨
      ((mAt s p).index ≤ m ∧ (mAt s ((mAt s p).index)).part = p)) :
    (∀ i, i ≤ m → (mAt (swapQ s a b) i).part < s.k ∧
      (mAt (swapQ s a b) ((mAt (swapQ s a b) i).part)).index = i) ∧
    (∀ p, p < s.k → (mAt (swapQ s a b) p).index = kInvalid ∨
      ((mAt (swapQ s a b) p).index ≤ m ∧
        (mAt (swapQ s a b) ((mAt (swapQ s a b) p).index)).part = p)) ∧
    ((swapQ s a b).queues.map List.length).sum = (s.queues.map List.length).sum ∧
    (∀ q, (mAt s q).index = kInvalid → (mAt (swapQ s a b) q).index = kInvalid) ∧
    (mAt (swapQ s a b) ((mAt s a).part)).index = b ∧
    (mAt (swapQ s a b) ((mAt s b).part)).index = a ∧
    (∀ i, qAt (swapQ s a b) i =
      if i = b then qAt s a else if i = a then qAt s b else qAt s i) ∧
    (∀ i, (mAt (swapQ s a b) i).part =
      if i = b then (mAt s a).part else if i = a then (mAt s b).part
        else (mAt s i).part) ∧
    (∀ q, q ≠ (mAt s a).part → q ≠ (mAt s b).part →
      (mAt (swapQ s a b) q).index = (mAt s q).index) := by
  have hkI : kInvalid = 18446744073709551615 := kInvalid_eq
  obtain ⟨hpak, hpa_bk⟩ := hpos a ha
  obtain ⟨hpbk, hpb_bk⟩ := hpos b hb
  set pa := (mAt s a).part with hpadef
  set pb := (mAt s b).part with hpbdef
  have hOK : SwapOK s a b :=
    ⟨hlq, hlm, by omega, by omega, hpak, hpbk, hpa_bk, hpb_bk⟩
  have hq : ∀ i, qAt (swapQ s a b) i =
      if i = b then qAt s a else if i = a then qAt s b else qAt s i :=
    fun i => swapQ_qAt s hOK i
  have hm : ∀ i, mAt (swapQ s a b) i =
      ⟨if i = b then pa else if i = a then pb else (mAt s i).part,
       if i = pa then b else if i = pb then a else (mAt s i).index⟩ :=
    fun i => swapQ_mAt s hOK i
  have hab_iff : a = b ↔ pa = pb :=
    ⟨fun hh => by rw [hpadef, hpbdef, hh], fun hh => by rw [← hpa_bk, hh, hpb_bk]⟩
  refine ⟨?_, ?_, ?_, ?_, by rw [hm]; simp, ?_, hq, ?_, ?_⟩
  · intro i hi
    by_cases hib : i = b
    · have hSpart : (mAt (swapQ s a b) i).part = pa := by
        rw [hm]
        simp [hib]
      refine ⟨by rw [hSpart]; exact hpak, ?_⟩
      rw [hSpart, hm]
      simp [hib]
    · by_cases hia : i = a
      · have hanb : a ≠ b := by omega
        have hSpart : (mAt (swapQ s a b) i).part = pb := by
          rw [hm]
          simp [hia, hanb]
        refine ⟨by rw [hSpart]; exact hpbk, ?_⟩
        rw [hSpart, hm]
        by_cases hpab : pa = pb
        · exact absurd (hab_iff.mpr hpab) hanb
        · simp [Ne.symm hpab, hia]
      · obtain ⟨hpik, hpi_bk⟩ := hpos i hi
        have hpi_ne_pa : (mAt s i).part ≠ pa := by
          intro hh
          rw [hh, hpa_bk] at hpi_bk
          exact hia hpi_bk.symm
        have hpi_ne_pb : (mAt s i).part ≠ pb := by
          intro hh
          rw [hh, hpb_bk] at hpi_bk
          exact hib hpi_bk.symm
        have hSpart : (mAt (swapQ s a b) i).part = (mAt s i).part := by
          rw [hm]
          simp [hia, hib]
        refine ⟨by rw [hSpart]; exact hpik, ?_⟩
        rw [hSpart, hm]
        simp [hpi_ne_pa, hpi_ne_pb, hpi_bk]
  · intro p hp
    by_cases hppa : p = pa
    · right
      have hSidx : (mAt (swapQ s a b) p).index = b := by
        rw [hm]
        simp [hppa]
      refine ⟨by rw [hSidx]; omega, ?_⟩
      rw [hSidx, hm]
      simp [hppa]
    · by_cases hppb : p = pb
      · right
        have hpbna : ¬ pb = pa := fun hh => hppa (hppb.trans hh)
        have hanb' : ¬ a = b := fun hh => hpbna (hab_iff.mp hh).symm
        have hSidx : (mAt (swapQ s a b) p).index = a := by
          rw [hm]
          simp [hppb, hpbna]
        refine ⟨by rw [hSidx]; omega, ?_⟩
        rw [hSidx, hm]
        simp [hanb', hppb]
      · have hSidx : (mAt (swapQ s a b) p).index = (mAt s p).index := by
          rw [hm]
          simp [hppa, hppb]
        rcases hpart p hp with h1 | ⟨h1, h2⟩
        · left
          rw [hSidx]
          exact h1
        · right
          have hi_ne_a : (mAt s p).index ≠ a := by
            intro hh
            rw [hh] at h2
            exact hppa h2.symm
          have hi_ne_b : (mAt s p).index ≠ b := by
            intro hh
            rw [hh] at h2
            exact hppb h2.symm
          refine ⟨by rw [hSidx]; omega, ?_⟩
          rw [hSidx, hm]
          simp [hi_ne_a, hi_ne_b, h2]
  · have hqueues : (swapQ s a b).queues = (s.queues.set a (qAt s b)).set b (qAt s a) :=
      rfl
    have hqget : ∀ i, s.queues.getD i [] = qAt s i := fun _ => rfl
    have h1 := sum_map_set s.queues a (qAt s b) (by omega)
    have h2 := sum_map_set (s.queues.set a (qAt s b)) b (qAt s a) (by simp; omega)
    rw [hqget] at h1
    rw [hqueues]
    by_cases hab : a = b
    · have hg : (s.queues.set a (qAt s b)).getD b [] = qAt s b := by
        rw [hab]
        exact getD_set_self _ _ _ _ (by omega)
      rw [hg] at h2
      rw [hab] at h1 h2 ⊢
      omega
    · have hg : (s.queues.set a (qAt s b)).getD b [] = qAt s b :=
        getD_set_ne _ _ _ hab
      rw [hg] at h2
      omega
  · intro q hinv
    have hq_ne_pa : q ≠ pa := by
      intro hh
      rw [hh, hpa_bk] at hinv
      omega
    have hq_ne_pb : q ≠ pb := by
      intro hh
      rw [hh, hpb_bk] at hinv
      omega
    rw [hm]
    simp [hq_ne_pa, hq_ne_pb, hinv]
  · rw [hm]
    by_cases hpab : pa = pb
    · have hab : a = b := hab_iff.mpr hpab
      simp [← hpab, hab]
    · simp [Ne.symm hpab]
  · intro i
    rw [hm]
  · intro q hqa hqb
    rw [hm]
    simp [hqa, hqb]

theorem set_getD_self {α : Type} (l : List α) (i : Nat) (d : α) :
    l.set i (l.getD i d) = l := by
  induction l generalizing i with
  | nil => rfl
  | cons a t ih =>
    cases i with
    | zero => simp [List.getD]
    | succ n =>
      simp only [List.getD] at ih ⊢
      simp only [List.get?_cons_succ, List.getElem?_cons_succ, List.set_cons_succ]
      rw [ih n]

/-- Writing a slot's current content back is a no-op. -/
theorem setQ_self (s : KWayPQ) (i : Nat) : setQ s i (qAt s i) = s := by
  cases s
  simp only [setQ, qAt]
  rw [set_getD_self]

/-- swapQ reads only the queues and the mapping, so it commutes with a
counter update. -/
theorem swapQ_setCounters_comm (s : KWayPQ) (a b c1 c2 c3 : Nat) :
    swapQ (setCounters s c1 c2 c3) a b = setCounters (swapQ s a b) c1 c2 c3 := rfl

theorem setCounters_setCounters (s : KWayPQ) (a1 a2 a3 b1 b2 b3 : Nat) :
    setCounters (setCounters s a1 a2 a3) b1 b2 b3 = setCounters s b1 b2 b3 := rfl

/-- Lines 165-172 / 191-198 (relocateEmptied): with the part's sub-queue
emptied while still enabled, shrinking both counters, swapping the slot to
the end of the enabled range and then to the end of the nonempty range and
marking the part unused restores the layout invariants; every other part
keeps its sub-queue and its enabled status. -/
theorem relocate_spec (s : KWayPQ) (part : Nat) (R : KWayPQ)
    (hR : R = relocateEmptied s part)
    (hlq : s.queues.length = s.k) (hlm : s.mapping.length = s.k + 1)
    (hkinv : s.k < kInvalid)
    (hen : s.numEnabled ≤ s.numNonempty) (hnn : s.numNonempty ≤ s.k)
    (hpart : part < s.k)
    (hpe : (mAt s part).index < s.numEnabled)
    (hjq : qAt s ((mAt s part).index) = [])
    (hposf : ∀ i, i < s.numNonempty →
      (mAt s i).part < s.k ∧ (mAt s ((mAt s i).part)).index = i ∧
        (i ≠ (mAt s part).index → qAt s i ≠ []))
    (htail : ∀ i, i < s.k → s.numNonempty ≤ i → qAt s i = [])
    (hpartf : ∀ p, p < s.k → (mAt s p).index = kInvalid ∨
      ((mAt s p).index < s.numNonempty ∧ (mAt s ((mAt s p).index)).part = p)) :
    R.k = s.k ∧
    R.queues.length = s.queues.length ∧
    R.mapping.length = s.mapping.length ∧
    R.numEntries = s.numEntries ∧
    R.numNonempty + 1 = s.numNonempty ∧
    R.numEnabled + 1 = s.numEnabled ∧
    (mAt R part).index = kInvalid ∧
    (∀ i, i < R.numNonempty →
      (mAt R i).part < s.k ∧ (mAt R ((mAt R i).part)).index = i ∧ qAt R i ≠ []) ∧
    (∀ i, i < s.k → R.numNonempty ≤ i → qAt R i = []) ∧
    (∀ p, p < s.k → p ≠ part → (mAt s p).index = kInvalid →
      (mAt R p).index = kInvalid) ∧
    (∀ q, q < s.k → q ≠ part → (mAt s q).index ≠ kInvalid →
      (mAt R q).index < R.numNonempty ∧
      (mAt R ((mAt R q).index)).part = q ∧
      qAt R ((mAt R q).index) = qAt s ((mAt s q).index) ∧
      ((mAt R q).index < R.numEnabled ↔ (mAt s q).index < s.numEnabled)) ∧
    (R.queues.map List.length).sum = (s.queues.map List.length).sum := by
  have hkI : kInvalid = 18446744073709551615 := kInvalid_eq
  set j := (mAt s part).index with hjdef
  have hne : 0 < s.numEnabled := by omega
  have hnn0 : 0 < s.numNonempty := by omega
  set e := s.numEnabled - 1 with hedef
  set n := s.numNonempty - 1 with hndef
  have hjbk : (mAt s j).part = part := by
    rcases hpartf part hpart with h | h
    · rw [← hjdef] at h
      omega
    · rw [← hjdef] at h
      exact h.2
  set sA := setCounters s s.numEntries n e with hsAdef
  have hmA : ∀ i, mAt sA i = mAt s i := fun i => by rw [hsAdef]; rfl
  have hqA : ∀ i, qAt sA i = qAt s i := fun i => by rw [hsAdef]; rfl
  have hkA : sA.k = s.k := by rw [hsAdef]; rfl
  have hlqA : sA.queues.length = sA.k := by rw [hsAdef]; simpa using hlq
  have hlmA : sA.mapping.length = sA.k + 1 := by rw [hsAdef]; simpa using hlm
  have hkinvA : sA.k < kInvalid := by rw [hkA]; exact hkinv
  have hmkA : n < sA.k := by rw [hkA]; omega
  have hajA : j ≤ n := by omega
  have hbeA : e ≤ n := by omega
  have hposA : ∀ i, i ≤ n →
      (mAt sA i).part < sA.k ∧ (mAt sA ((mAt sA i).part)).index = i := by
    intro i hi
    obtain ⟨h1, h2, _⟩ := hposf i (by omega)
    simp only [hmA, hkA]
    exact ⟨h1, h2⟩
  have hpartA : ∀ p, p < sA.k → (mAt sA p).index = kInvalid ∨
      ((mAt sA p).index ≤ n ∧ (mAt sA ((mAt sA p).index)).part = p) := by
    intro p hp
    rw [hkA] at hp
    simp only [hmA]
    rcases hpartf p hp with h | ⟨h1, h2⟩
    · exact Or.inl h
    · exact Or.inr ⟨by omega, h2⟩
  obtain ⟨P1, P2, P3, P4, P5, P6, P7, P8, P9⟩ :=
    swapQ_maplayout sA hlqA hlmA hkinvA hmkA hajA hbeA hposA hpartA
  set S := swapQ sA j e with hSdef
  have hSk : S.k = s.k := by rw [hSdef]; simpa using hkA
  have hSn : S.numNonempty = n := by rw [hSdef, hsAdef]; rfl
  have hSe : S.numEnabled = e := by rw [hSdef, hsAdef]; rfl
  have hSentries : S.numEntries = s.numEntries := by rw [hSdef, hsAdef]; rfl
  have hSlq : S.queues.length = s.queues.length := by rw [hSdef, hsAdef]; simp
  have hSlm : S.mapping.length = s.mapping.length := by rw [hSdef, hsAdef]; simp
  have hqS : ∀ i, qAt S i =
      if i = e then qAt s j else if i = j then qAt s e else qAt s i := by
    intro i
    rw [P7 i]
    simp only [hqA]
  have hSpart_idx : (mAt S part).index = e := by
    have h5 := P5
    rw [show (mAt sA j).part = part from by rw [hmA]; exact hjbk] at h5
    exact h5
  have hpe_part : (mAt sA e).part = (mAt s e).part := by rw [hmA]
  have hRX : R = markUnused (swapQ S ((mAt S part).index) S.numNonempty) part := by
    rw [hR, relocateEmptied_eq, hSdef, hsAdef]
    rfl
  have hlqX : S.queues.length = S.k := by rw [hSlq, hSk]; exact hlq
  have hlmX : S.mapping.length = S.k + 1 := by rw [hSlm, hSk]; exact hlm
  have hkinvX : S.k < kInvalid := by rw [hSk]; exact hkinv
  have hnkX : S.numNonempty < S.k := by rw [hSn, hSk]; omega
  have hpartX : part < S.k := by rw [hSk]; exact hpart
  have hjnX : (mAt S part).index ≤ S.numNonempty := by
    rw [hSpart_idx, hSn]
    omega
  have hjeX : S.numEnabled ≤ (mAt S part).index := by
    rw [hSpart_idx, hSe]
  have hjqX : qAt S ((mAt S part).index) = [] := by
    rw [hSpart_idx, hqS]
    simp [hjq]
  have hposfX : ∀ i, i ≤ S.numNonempty →
      (mAt S i).part < S.k ∧ (mAt S ((mAt S i).part)).index = i ∧
        (i ≠ (mAt S part).index → qAt S i ≠ []) := by
    intro i hi
    rw [hSn] at hi
    obtain ⟨h1, h2⟩ := P1 i hi
    refine ⟨by rw [hSk]; rw [hkA] at h1; exact h1, h2, ?_⟩
    intro hie
    rw [hSpart_idx] at hie
    rw [hqS i, if_neg hie]
    by_cases hij : i = j
    · rw [if_pos hij]
      have hje : e ≠ j := by omega
      exact (hposf e (by omega)).2.2 hje
    · rw [if_neg hij]
      exact (hposf i (by omega)).2.2 hij
  have htailfX : ∀ i, i < S.k → S.numNonempty + 1 ≤ i → qAt S i = [] := by
    intro i hik hi
    rw [hSk] at hik
    rw [hSn] at hi
    have hie : i ≠ e := by omega
    have hij : i ≠ j := by omega
    rw [hqS i, if_neg hie, if_neg hij]
    exact htail i hik (by omega)
  have hpartfX : ∀ p, p < S.k → (mAt S p).index = kInvalid ∨
      ((mAt S p).index ≤ S.numNonempty ∧ (mAt S ((mAt S p).index)).part = p) := by
    intro p hp
    rw [hSk] at hp
    rcases P2 p (by rw [hkA]; exact hp) with h | ⟨h1, h2⟩
    · exact Or.inl h
    · exact Or.inr ⟨by rw [hSn]; exact h1, h2⟩
  obtain ⟨R1, R2, R3, R4, R5, R6, R7, R8, R9, R10, R11, R12⟩ :=
    retire_spec S part R hRX hlqX hlmX hkinvX hnkX hpartX hjnX hjeX hjqX
      hposfX htailfX hpartfX
  have hRn : R.numNonempty = n := by rw [R5, hSn]
  have hRe : R.numEnabled = e := by rw [R6, hSe]
  refine ⟨by rw [R1, hSk], by rw [R2, hSlq], by rw [R3, hSlm],
    by rw [R4, hSentries], by rw [hRn]; omega, by rw [hRe]; omega, R7,
    ?_, ?_, ?_, ?_, ?_⟩
  · intro i hi
    rw [hRn] at hi
    obtain ⟨h1, h2, h3⟩ := R8 i (by rw [hSn]; exact hi)
    exact ⟨by rw [hSk] at h1; exact h1, h2, h3⟩
  · intro i hik hi
    rw [hRn] at hi
    exact R9 i (by rw [hSk]; exact hik) (by rw [hSn]; exact hi)
  · intro p hp hpp hpinv
    have hSinv : (mAt S p).index = kInvalid := by
      rw [hSdef]
      exact P4 p (by rw [hmA]; exact hpinv)
    exact R10 p (by rw [hSk]; exact hp) hpp hSinv
  · intro q hq hqp hquse
    by_cases hqpe : q = (mAt s e).part
    · -- the part that sat on the last enabled slot moved to slot j
      have hjnee : j ≠ e := by
        intro hh
        rw [hqpe, ← hh, hjbk] at hqp
        exact hqp rfl
      have hebk : (mAt s ((mAt s e).part)).index = e := (hposf e (by omega)).2.1
      have hSqidx : (mAt S q).index = j := by
        have h6 := P6
        rw [hpe_part, ← hqpe] at h6
        exact h6
      have hquseS : (mAt S q).index ≠ kInvalid := by
        rw [hSqidx]
        omega
      obtain ⟨h1, h2, h3, h4⟩ := R11 q (by rw [hSk]; exact hq) hqp hquseS
      have hqidx : (mAt s q).index = e := by rw [hqpe, hebk]
      refine ⟨by rw [hRn, ← hSn]; exact h1, h2, ?_, ?_⟩
      · rw [h3, hSqidx, hqS j, if_neg hjnee, if_pos rfl, hqidx]
      · rw [hSe, hSqidx] at h4
        have hlt : (mAt R q).index < e := h4.mpr (by omega)
        rw [hRe, hqidx]
        exact ⟨fun _ => by omega, fun _ => hlt⟩
    · -- parts away from the two swapped slots are untouched
      rcases hpartf q hq with h | ⟨h1, h2⟩
      · exact absurd h hquse
      have hine : (mAt s q).index ≠ e := by
        intro hh
        rw [hh] at h2
        exact hqpe h2.symm
      have hinj : (mAt s q).index ≠ j := by
        intro hh
        rw [hh, hjbk] at h2
        exact hqp h2.symm
      have hSqidx : (mAt S q).index = (mAt s q).index := by
        have h9 := P9 q (by rw [hmA, hjbk]; exact hqp)
          (by rw [hpe_part]; exact hqpe)
        rw [h9, hmA]
      have hquseS : (mAt S q).index ≠ kInvalid := by
        rw [hSqidx]
        exact hquse
      obtain ⟨h1', h2', h3', h4'⟩ := R11 q (by rw [hSk]; exact hq) hqp hquseS
      refine ⟨by rw [hRn, ← hSn]; exact h1', h2', ?_, ?_⟩
      · rw [h3', hSqidx, hqS, if_neg hine, if_neg hinj]
      · rw [hSe, hSqidx] at h4'
        rw [hRe]
        constructor
        · intro hh
          have := h4'.mp hh
          omega
        · intro hh
          exact h4'.mpr (by omega)
  · rw [R12]
    have h3 := P3
    rw [show sA.queues = s.queues from by rw [hsAdef]; rfl] at h3
    exact h3


/-- The shared tail of deleteMax, deleteMaxFromPartition and the enabled
branch of remove: replacing the sub-queue of an enabled part by a one-entry
shorter queue, relocating the sub-queue to the unused range if it became
empty, and decrementing the entry count preserves well-formedness, removes
exactly one entry, marks the part unused when its sub-queue was emptied, and
leaves the enabled/unused status and the size of every other part
unchanged. -/
theorem popEntry_spec {s : KWayPQ} (h : KWayWF s) {p : Nat} (hp : p < s.k)
    (hidx : (mAt s p).index < s.numEnabled) {q' : GainHeap}
    (hlen : q'.length + 1 = (qAt s ((mAt s p).index)).length)
    {s1 s2 F : KWayPQ}
    (hs1 : s1 = setQ s ((mAt s p).index) q')
    (hs2 : s2 = if (qAt s1 ((mAt s p).index)).isEmpty then relocateEmptied s1 p else s1)
    (hF : F = setCounters s2 (s2.numEntries - 1) s2.numNonempty s2.numEnabled) :
    KWayWF F ∧ F.numEntries + 1 = s.numEntries ∧ F.k = s.k ∧
    (q' = [] → isUnusedB F p = true ∧ isEnabledB F p = false) ∧
    (∀ q, q < s.k → q ≠ p →
      isEnabledB F q = isEnabledB s q ∧ isUnusedB F q = isUnusedB s q ∧
      sizeOfPart F q = sizeOfPart s q) := by
  obtain ⟨hk, hlq, hlm, hen, hnn, hpos, htail, hpart, hcnt⟩ := h
  have hkI : kInvalid = 18446744073709551615 := kInvalid_eq
  set idx := (mAt s p).index with hidxdef
  have hidxn : idx < s.numNonempty := by omega
  obtain ⟨hpk_, hbk_, hqne⟩ := hpos idx hidxn
  have hbkp : (mAt s idx).part = p := by
    rcases hpart p hp with hh | hh
    · rw [← hidxdef] at hh
      omega
    · rw [← hidxdef] at hh
      exact hh.2
  have hqne_idx : ∀ q, q < s.k → q ≠ p → (mAt s q).index ≠ idx := by
    intro q hq hqp hh
    rcases hpart q hq with huu | ⟨_, hbk2⟩
    · rw [huu] at hh
      omega
    · rw [hh, hbkp] at hbk2
      exact hqp hbk2.symm
  have hm1 : ∀ i, mAt s1 i = mAt s i := fun i => by rw [hs1]; rfl
  have hq1self : qAt s1 idx = q' := by
    rw [hs1]
    exact qAt_setQ_self s _ (by omega)
  have hq1ne : ∀ i, i ≠ idx → qAt s1 i = qAt s i := fun i hi => by
    rw [hs1]
    exact qAt_setQ_ne s _ (fun hh => hi hh.symm)
  have hk1 : s1.k = s.k := by rw [hs1]; rfl
  have hent1 : s1.numEntries = s.numEntries := by rw [hs1]; rfl
  have hn1 : s1.numNonempty = s.numNonempty := by rw [hs1]; rfl
  have he1 : s1.numEnabled = s.numEnabled := by rw [hs1]; rfl
  have hlq1 : s1.queues.length = s.k := by rw [hs1]; simpa using hlq
  have hlm1 : s1.mapping.length = s.k + 1 := by rw [hs1]; simpa using hlm
  have hidx1 : (mAt s1 p).index = idx := by
    rw [hm1]
  have hsum1 : (s1.queues.map List.length).sum + 1 = (s.queues.map List.length).sum := by
    have h1 := sum_map_set s.queues idx q' (by omega)
    have hgd : s.queues.getD idx [] = qAt s idx := rfl
    rw [hgd] at h1
    have hq1 : s1.queues = s.queues.set idx q' := by rw [hs1]; rfl
    rw [hq1]
    omega
  by_cases hE : (qAt s1 idx).isEmpty
  · -- the removal emptied the sub-queue: it is moved to the unused range
    have hqempty : qAt s1 idx = [] := by
      cases hq : qAt s1 idx with
      | nil => rfl
      | cons a t => rw [hq] at hE; simp [List.isEmpty] at hE
    have hs2' : s2 = relocateEmptied s1 p := by rw [hs2, if_pos hE]
    have hlq1' : s1.queues.length = s1.k := by rw [hk1]; exact hlq1
    have hlm1' : s1.mapping.length = s1.k + 1 := by rw [hk1]; exact hlm1
    have hkinv1 : s1.k < kInvalid := by rw [hk1]; exact hk
    have hen1 : s1.numEnabled ≤ s1.numNonempty := by rw [he1, hn1]; exact hen
    have hnn1 : s1.numNonempty ≤ s1.k := by rw [hn1, hk1]; exact hnn
    have hp1 : p < s1.k := by rw [hk1]; exact hp
    have hpe1 : (mAt s1 p).index < s1.numEnabled := by
      rw [hidx1, he1]
      exact hidx
    have hjq1 : qAt s1 ((mAt s1 p).index) = [] := by rw [hidx1]; exact hqempty
    have hposf1 : ∀ i, i < s1.numNonempty →
        (mAt s1 i).part < s1.k ∧ (mAt s1 ((mAt s1 i).part)).index = i ∧
          (i ≠ (mAt s1 p).index → qAt s1 i ≠ []) := by
      intro i hi
      rw [hn1] at hi
      obtain ⟨h1, h2, h3⟩ := hpos i hi
      refine ⟨by simp only [hm1, hk1]; exact h1, by simp only [hm1]; exact h2, ?_⟩
      intro hne'
      rw [hidx1] at hne'
      rw [hq1ne i hne']
      exact h3
    have htail1 : ∀ i, i < s1.k → s1.numNonempty ≤ i → qAt s1 i = [] := by
      intro i hik hi
      rw [hk1] at hik
      rw [hn1] at hi
      rw [hq1ne i (by omega)]
      exact htail i hik hi
    have hpartf1 : ∀ p', p' < s1.k → (mAt s1 p').index = kInvalid ∨
        ((mAt s1 p').index < s1.numNonempty ∧
          (mAt s1 ((mAt s1 p').index)).part = p') := by
      intro p' hp'
      rw [hk1] at hp'
      simp only [hm1, hn1]
      exact hpart p' hp'
    obtain ⟨C1, C2, C3, C4, C5, C6, C7, C8, C9, C10, C11, C12⟩ :=
      relocate_spec s1 p s2 hs2' hlq1' hlm1' hkinv1 hen1 hnn1 hp1 hpe1 hjq1
        hposf1 htail1 hpartf1
    have hmF : ∀ i, mAt F i = mAt s2 i := fun i => by rw [hF]; rfl
    have hqF : ∀ i, qAt F i = qAt s2 i := fun i => by rw [hF]; rfl
    have hkF : F.k = s2.k := by rw [hF]; rfl
    have hFn : F.numNonempty = s2.numNonempty := by rw [hF]; rfl
    have hFe : F.numEnabled = s2.numEnabled := by rw [hF]; rfl
    have hFcnt : F.numEntries = s2.numEntries - 1 := by rw [hF]; rfl
    have hFql : F.queues.length = s2.queues.length := by rw [hF]; rfl
    have hFq : F.queues = s2.queues := by rw [hF]; rfl
    have hs2k : s2.k = s.k := by rw [C1, hk1]
    have hent2 : s2.numEntries = s.numEntries := by rw [C4, hent1]
    have hsum2 : (s2.queues.map List.length).sum + 1 = s.numEntries := by
      rw [C12]
      omega
    refine ⟨⟨?_, ?_, ?_, ?_, ?_, ?_, ?_, ?_, ?_⟩, ?_, by rw [hkF, hs2k], ?_, ?_⟩
    · rw [hkF, hs2k]
      exact hk
    · rw [hFql, hkF, C2, hlq1]
      exact hs2k.symm
    · rw [hkF, hs2k, hF]
      show s2.mapping.length = s.k + 1
      rw [C3, hlm1]
    · rw [hFe, hFn]
      omega
    · rw [hFn, hkF, hs2k]
      omega
    · intro i hi
      rw [hFn] at hi
      obtain ⟨h1, h2, h3⟩ := C8 i hi
      refine ⟨?_, ?_, ?_⟩
      · rw [hmF, hkF, hs2k, hk1] at *
        exact h1
      · simp only [hmF]
        exact h2
      · rw [hqF]
        exact h3
    · intro i hik hi
      rw [hkF, hs2k] at hik
      rw [hFn] at hi
      rw [hqF]
      exact C9 i (by rw [hk1]; exact hik) hi
    · intro p' hp'
      rw [hkF, hs2k] at hp'
      by_cases hpp : p' = p
      · left
        rw [hpp, hmF]
        exact C7
      · by_cases hinv : (mAt s1 p').index = kInvalid
        · left
          rw [hmF]
          exact C10 p' (by rw [hk1]; exact hp') hpp hinv
        · obtain ⟨h1, h2, _, _⟩ := C11 p' (by rw [hk1]; exact hp') hpp hinv
          right
          rw [hmF, hFn, hmF]
          exact ⟨by omega, h2⟩
    · rw [hFcnt, hFq]
      omega
    · rw [hFcnt]
      omega
    · intro _
      constructor
      · simp [isUnusedB, hmF, C7]
      · simp only [isEnabledB, hmF, C7]
        exact decide_eq_false (by rw [hFe]; omega)
    · intro q hq hqp
      by_cases hun : (mAt s q).index = kInvalid
      · have hs2q : (mAt s2 q).index = kInvalid :=
          C10 q (by rw [hk1]; exact hq) hqp (by rw [hm1]; exact hun)
        refine ⟨?_, ?_, ?_⟩
        · simp only [isEnabledB, hmF, hs2q, hun]
          rw [show decide (kInvalid < F.numEnabled) = false from
              decide_eq_false (by rw [hFe]; omega),
            show decide (kInvalid < s.numEnabled) = false from
              decide_eq_false (by omega)]
        · simp only [isUnusedB, hmF, hs2q, hun]
        · simp only [sizeOfPart, hmF, hs2q, hun]
          rw [if_neg (by rw [hFn]; omega), if_neg (by omega)]
      · have hqi : (mAt s q).index < s.numNonempty ∧
            (mAt s ((mAt s q).index)).part = q := by
          rcases hpart q hq with hh | hh
          · exact absurd hh hun
          · exact hh
        obtain ⟨h1, h2, h3, h4⟩ := C11 q (by rw [hk1]; exact hq) hqp
          (by rw [hm1]; exact hun)
        rw [hm1] at h3 h4
        rw [he1] at h4
        have h3' : qAt s2 ((mAt s2 q).index) = qAt s ((mAt s q).index) := by
          rw [h3]
          exact hq1ne _ (hqne_idx q hq hqp)
        refine ⟨?_, ?_, ?_⟩
        · simp only [isEnabledB, hmF, hFe]
          exact decide_eq_decide.mpr h4
        · simp only [isUnusedB, hmF]
          rw [show ((mAt s2 q).index == kInvalid) = false from
              beq_eq_false_iff_ne.mpr (by omega),
            show ((mAt s q).index == kInvalid) = false from
              beq_eq_false_iff_ne.mpr (by omega)]
        · simp only [sizeOfPart, hmF, hqF, hFn]
          rw [if_pos h1, if_pos hqi.1, h3']
  · -- the sub-queue is still nonempty: only the entry count changes
    have hqnonempty : qAt s1 idx ≠ [] := by
      intro hh
      apply hE
      rw [hh]
      rfl
    have hs2' : s2 = s1 := by rw [hs2, if_neg hE]
    have hmF : ∀ i, mAt F i = mAt s i := fun i => by rw [hF, hs2']; exact hm1 i
    have hqF : ∀ i, qAt F i = qAt s1 i := fun i => by rw [hF, hs2']; rfl
    have hkF : F.k = s.k := by rw [hF, hs2']; exact hk1
    have hFn : F.numNonempty = s.numNonempty := by rw [hF, hs2']; exact hn1
    have hFe : F.numEnabled = s.numEnabled := by rw [hF, hs2']; exact he1
    have hFcnt : F.numEntries = s1.numEntries - 1 := by rw [hF, hs2']; rfl
    have hFq : F.queues = s1.queues := by rw [hF, hs2']; rfl
    have hFql : F.queues.length = s1.queues.length := by rw [hFq]
    refine ⟨⟨?_, ?_, ?_, ?_, ?_, ?_, ?_, ?_, ?_⟩, ?_, hkF, ?_, ?_⟩
    · rw [hkF]
      exact hk
    · rw [hFql, hkF, hlq1]
    · rw [hkF, hF, hs2']
      show s1.mapping.length = s.k + 1
      exact hlm1
    · rw [hFe, hFn]
      exact hen
    · rw [hFn, hkF]
      exact hnn
    · intro i hi
      rw [hFn] at hi
      obtain ⟨h1, h2, h3⟩ := hpos i hi
      refine ⟨by rw [hmF, hkF]; exact h1, by simp only [hmF]; exact h2, ?_⟩
      rw [hqF]
      by_cases hii : i = idx
      · rw [hii]
        exact hqnonempty
      · rw [hq1ne i hii]
        exact h3
    · intro i hik hi
      rw [hkF] at hik
      rw [hFn] at hi
      rw [hqF, hq1ne i (by omega)]
      exact htail i hik hi
    · intro p' hp'
      rw [hkF] at hp'
      simp only [hmF, hFn]
      exact hpart p' hp'
    · rw [hFcnt, hFq, hent1]
      omega
    · rw [hFcnt, hent1]
      omega
    · intro hq'
      exact absurd (by rw [hq1self, hq']; rfl) hE
    · intro q hq hqp
      refine ⟨?_, ?_, ?_⟩
      · simp [isEnabledB, hmF, hFe]
      · simp [isUnusedB, hmF]
      · simp only [sizeOfPart, hmF, hFn]
        by_cases hlt : (mAt s q).index < s.numNonempty
        · rw [if_pos hlt, if_pos hlt, hqF,
            hq1ne _ (hqne_idx q hq hqp)]
        · rw [if_neg hlt, if_neg hlt]

/-- deleteMax on a well-formed state with an enabled sub-queue: the returned
entry is stored in an enabled part's sub-queue, its key dominates every entry
of every enabled sub-queue, the result state is well-formed and holds exactly
one entry less. -/
theorem kwayDeleteMax_spec {s : KWayPQ} (h : KWayWF s) (h0 : 0 < s.numEnabled) :
    ∃ id key part, (kwayDeleteMax s).1 = some (id, key, part) ∧
      part < s.k ∧ isEnabledB s part = true ∧
      (id, key) ∈ qAt s ((mAt s part).index) ∧
      (∀ i, i < s.numEnabled → ∀ ent ∈ qAt s i, ent.2 ≤ key) ∧
      KWayWF (kwayDeleteMax s).2 ∧
      (kwayDeleteMax s).2.numEntries + 1 = s.numEntries ∧
      (kwayDeleteMax s).2.k = s.k ∧
      (heapPop (qAt s ((mAt s part).index)) = [] →
        isUnusedB (kwayDeleteMax s).2 part = true ∧
        isEnabledB (kwayDeleteMax s).2 part = false) ∧
      (∀ q, q < s.k → q ≠ part →
        isEnabledB (kwayDeleteMax s).2 q = isEnabledB s q ∧
        isUnusedB (kwayDeleteMax s).2 q = isUnusedB s q ∧
        sizeOfPart (kwayDeleteMax s).2 q = sizeOfPart s q) := by
  obtain ⟨mi, key, hfold, hmi, hmilt, htopkey, hbound⟩ := maxIndex_spec h h0
  have hWF := h
  obtain ⟨hk, hlq, hlm, hen, hnn, hpos, htail, hpart, hcnt⟩ := hWF
  obtain ⟨hpk, hbk, hqne⟩ := hpos mi (by omega)
  cases htop : heapTop? (qAt s mi) with
  | none =>
    rw [htop] at htopkey
    simp at htopkey
  | some e =>
    rw [htop] at htopkey
    have hekey : e.2 = key := by simpa using htopkey
    have hres := kwayDeleteMax_eq s hmi htop
    have hone : (kwayDeleteMax s).1 = some (e.1, e.2, (mAt s mi).part) := by
      rw [hres]
    have hlen4 : (heapPop (qAt s ((mAt s ((mAt s mi).part)).index))).length + 1 =
        (qAt s ((mAt s ((mAt s mi).part)).index)).length := by
      rw [hbk]
      exact heapPop_length hqne
    obtain ⟨hWFF, hcntF, hkF, hun4, hobs5⟩ := popEntry_spec h hpk
      (by rw [hbk]; exact hmilt) hlen4
      (by rw [hbk] : setQ s mi (heapPop (qAt s mi)) =
        setQ s ((mAt s ((mAt s mi).part)).index)
          (heapPop (qAt s ((mAt s ((mAt s mi).part)).index))))
      (by rw [hbk] :
        (if (qAt (setQ s mi (heapPop (qAt s mi))) mi).isEmpty then
          relocateEmptied (setQ s mi (heapPop (qAt s mi))) ((mAt s mi).part)
        else setQ s mi (heapPop (qAt s mi))) =
        (if (qAt (setQ s mi (heapPop (qAt s mi)))
              ((mAt s ((mAt s mi).part)).index)).isEmpty then
          relocateEmptied (setQ s mi (heapPop (qAt s mi))) ((mAt s mi).part)
        else setQ s mi (heapPop (qAt s mi))))
      (by rw [hres] :
        (kwayDeleteMax s).2 =
          setCounters
            (if (qAt (setQ s mi (heapPop (qAt s mi))) mi).isEmpty then
              relocateEmptied (setQ s mi (heapPop (qAt s mi))) ((mAt s mi).part)
            else setQ s mi (heapPop (qAt s mi)))
            ((if (qAt (setQ s mi (heapPop (qAt s mi))) mi).isEmpty then
              relocateEmptied (setQ s mi (heapPop (qAt s mi))) ((mAt s mi).part)
            else setQ s mi (heapPop (qAt s mi))).numEntries - 1)
            ((if (qAt (setQ s mi (heapPop (qAt s mi))) mi).isEmpty then
              relocateEmptied (setQ s mi (heapPop (qAt s mi))) ((mAt s mi).part)
            else setQ s mi (heapPop (qAt s mi))).numNonempty)
            ((if (qAt (setQ s mi (heapPop (qAt s mi))) mi).isEmpty then
              relocateEmptied (setQ s mi (heapPop (qAt s mi))) ((mAt s mi).part)
            else setQ s mi (heapPop (qAt s mi))).numEnabled))
    refine ⟨e.1, key, (mAt s mi).part, ?_, hpk, ?_, ?_, hbound, hWFF, hcntF, hkF,
      hun4, hobs5⟩
    · rw [hone, hekey]
    · simp only [isEnabledB, hbk]
      exact decide_eq_true hmilt
    · rw [hbk, ← hekey]
      exact heapTop?_mem htop

/-- deleteMaxFromPartition on a well-formed state and an enabled part: the
returned entry is the maximum of that part's sub-queue, the result state is
well-formed and holds exactly one entry less. -/
theorem kwayDeleteMaxFromPartition_spec {s : KWayPQ} (h : KWayWF s) {p : Nat}
    (hp : p < s.k) (he : isEnabledB s p = true) :
    ∃ id key, (kwayDeleteMaxFromPartition s p).1 = some (id, key) ∧
      (id, key) ∈ qAt s ((mAt s p).index) ∧
      (∀ ent ∈ qAt s ((mAt s p).index), ent.2 ≤ key) ∧
      KWayWF (kwayDeleteMaxFromPartition s p).2 ∧
      (kwayDeleteMaxFromPartition s p).2.numEntries + 1 = s.numEntries ∧
      (kwayDeleteMaxFromPartition s p).2.k = s.k ∧
      (heapPop (qAt s ((mAt s p).index)) = [] →
        isUnusedB (kwayDeleteMaxFromPartition s p).2 p = true ∧
        isEnabledB (kwayDeleteMaxFromPartition s p).2 p = false) ∧
      (∀ q, q < s.k → q ≠ p →
        isEnabledB (kwayDeleteMaxFromPartition s p).2 q = isEnabledB s q ∧
        isUnusedB (kwayDeleteMaxFromPartition s p).2 q = isUnusedB s q ∧
        sizeOfPart (kwayDeleteMaxFromPartition s p).2 q = sizeOfPart s q) := by
  have hWF := h
  obtain ⟨hk, hlq, hlm, hen, hnn, hpos, htail, hpart, hcnt⟩ := hWF
  have hidx : (mAt s p).index < s.numEnabled := by
    have := of_decide_eq_true he
    exact this
  obtain ⟨hpk, hbk, hqne⟩ := hpos ((mAt s p).index) (by omega)
  cases htop : heapTop? (qAt s ((mAt s p).index)) with
  | none => exact absurd ((heapTop?_eq_none_iff _).mp htop) hqne
  | some e =>
    have hres := kwayDeleteMaxFromPartition_eq s htop
    have hone : (kwayDeleteMaxFromPartition s p).1 = some e := by rw [hres]
    obtain ⟨hWFF, hcntF, hkF, hun4, hobs5⟩ := popEntry_spec h hp hidx
      (heapPop_length hqne) rfl rfl
      (by rw [hres] :
        (kwayDeleteMaxFromPartition s p).2 =
          setCounters
            (if (qAt (setQ s ((mAt s p).index) (heapPop (qAt s ((mAt s p).index))))
                  ((mAt s p).index)).isEmpty then
              relocateEmptied
                (setQ s ((mAt s p).index) (heapPop (qAt s ((mAt s p).index)))) p
            else setQ s ((mAt s p).index) (heapPop (qAt s ((mAt s p).index))))
            ((if (qAt (setQ s ((mAt s p).index) (heapPop (qAt s ((mAt s p).index))))
                  ((mAt s p).index)).isEmpty then
              relocateEmptied
                (setQ s ((mAt s p).index) (heapPop (qAt s ((mAt s p).index)))) p
            else setQ s ((mAt s p).index)
              (heapPop (qAt s ((mAt s p).index)))).numEntries - 1)
            ((if (qAt (setQ s ((mAt s p).index) (heapPop (qAt s ((mAt s p).index))))
                  ((mAt s p).index)).isEmpty then
              relocateEmptied
                (setQ s ((mAt s p).index) (heapPop (qAt s ((mAt s p).index)))) p
            else setQ s ((mAt s p).index)
              (heapPop (qAt s ((mAt s p).index)))).numNonempty)
            ((if (qAt (setQ s ((mAt s p).index) (heapPop (qAt s ((mAt s p).index))))
                  ((mAt s p).index)).isEmpty then
              relocateEmptied
                (setQ s ((mAt s p).index) (heapPop (qAt s ((mAt s p).index)))) p
            else setQ s ((mAt s p).index)
              (heapPop (qAt s ((mAt s p).index)))).numEnabled))
    refine ⟨e.1, e.2, by rw [hone], heapTop?_mem htop, ?_, hWFF, hcntF, hkF,
      hun4, hobs5⟩
    intro ent hent
    exact heapTop?_ge htop ent hent

/-- remove (with its asserted preconditions): the state stays well-formed and
holds exactly one entry less; if the removal emptied the part's sub-queue the
part is marked unused and disabled; every other part keeps its enabled and
unused status and its size. -/
theorem kwayRemove_spec {s : KWayPQ} (h : KWayWF s) {id p : Nat} (hp : p < s.k)
    (hc : containsB s id p = true) :
    KWayWF (kwayRemove s id p) ∧
    (kwayRemove s id p).numEntries + 1 = s.numEntries ∧
    (kwayRemove s id p).k = s.k ∧
    (heapRemoveId id (qAt s ((mAt s p).index)) = [] →
      isUnusedB (kwayRemove s id p) p = true ∧
      isEnabledB (kwayRemove s id p) p = false) ∧
    (∀ q, q < s.k → q ≠ p →
      isEnabledB (kwayRemove s id p) q = isEnabledB s q ∧
      isUnusedB (kwayRemove s id p) q = isUnusedB s q ∧
      sizeOfPart (kwayRemove s id p) q = sizeOfPart s q) := by
  have hWF := h
  obtain ⟨hk, hlq, hlm, hen, hnn, hpos, htail, hpart, hcnt⟩ := hWF
  have hkI : kInvalid = 18446744073709551615 := kInvalid_eq
  have hcc := (Bool.and_eq_true _ _).mp hc
  set idx := (mAt s p).index with hidxdef
  have hidxn : idx < s.numNonempty := of_decide_eq_true hcc.1
  have hcont : heapContains (qAt s idx) id = true := hcc.2
  have hqne : qAt s idx ≠ [] := by
    intro hh
    rw [hh] at hcont
    simp [heapContains] at hcont
  have hbkp : (mAt s idx).part = p := by
    rcases hpart p hp with hh | hh
    · rw [← hidxdef] at hh
      omega
    · rw [← hidxdef] at hh
      exact hh.2
  have hqne_idx : ∀ q, q < s.k → q ≠ p → (mAt s q).index ≠ idx := by
    intro q hq hqp hh
    rcases hpart q hq with huu | ⟨_, hbk2⟩
    · rw [huu] at hh
      omega
    · rw [hh, hbkp] at hbk2
      exact hqp hbk2.symm
  have hlenR : (heapRemoveId id (qAt s idx)).length + 1 = (qAt s idx).length :=
    heapRemoveId_length hcont
  set s1 := setQ s idx (heapRemoveId id (qAt s idx)) with hs1def
  have hm1 : ∀ i, mAt s1 i = mAt s i := fun i => by rw [hs1def]; rfl
  have hq1self : qAt s1 idx = heapRemoveId id (qAt s idx) := by
    rw [hs1def]
    exact qAt_setQ_self s _ (by omega)
  have hq1ne : ∀ i, i ≠ idx → qAt s1 i = qAt s i := fun i hi => by
    rw [hs1def]
    exact qAt_setQ_ne s _ (fun hh => hi hh.symm)
  have hk1 : s1.k = s.k := by rw [hs1def]; rfl
  have hent1 : s1.numEntries = s.numEntries := by rw [hs1def]; rfl
  have hn1 : s1.numNonempty = s.numNonempty := by rw [hs1def]; rfl
  have he1 : s1.numEnabled = s.numEnabled := by rw [hs1def]; rfl
  have hlq1 : s1.queues.length = s.k := by rw [hs1def]; simpa using hlq
  have hlm1 : s1.mapping.length = s.k + 1 := by rw [hs1def]; simpa using hlm
  have hidx1 : (mAt s1 p).index = idx := by rw [hm1]
  have hsum1 : (s1.queues.map List.length).sum + 1 = (s.queues.map List.length).sum := by
    have h1 := sum_map_set s.queues idx (heapRemoveId id (qAt s idx)) (by omega)
    have hgd : s.queues.getD idx [] = qAt s idx := rfl
    rw [hgd] at h1
    have hq1 : s1.queues = s.queues.set idx (heapRemoveId id (qAt s idx)) := by
      rw [hs1def]
      rfl
    rw [hq1]
    omega
  have hres := kwayRemove_eq s id p
  simp only [] at hres
  rw [← hidxdef] at hres
  rw [← hs1def] at hres
  by_cases hEn : isEnabledB s p = true
  · -- the part is enabled: the emptied branch coincides with relocateEmptied
    have hidxE : idx < s.numEnabled := by
      have := of_decide_eq_true hEn
      rw [← hidxdef] at this
      exact this
    have hEn1 : isEnabledB s1 p = true := by
      show decide ((mAt s1 p).index < s1.numEnabled) = true
      rw [hidx1, he1]
      exact hEn
    have hFeq : kwayRemove s id p =
        setCounters
          (if (qAt s1 ((mAt s p).index)).isEmpty then relocateEmptied s1 p else s1)
          ((if (qAt s1 ((mAt s p).index)).isEmpty then relocateEmptied s1 p
            else s1).numEntries - 1)
          (if (qAt s1 ((mAt s p).index)).isEmpty then relocateEmptied s1 p
            else s1).numNonempty
          (if (qAt s1 ((mAt s p).index)).isEmpty then relocateEmptied s1 p
            else s1).numEnabled := by
      rw [← hidxdef]
      by_cases hE : (qAt s1 idx).isEmpty
      · have hqempty : qAt s1 idx = [] := by
          cases hq : qAt s1 idx with
          | nil => rfl
          | cons a t => rw [hq] at hE; simp [List.isEmpty] at hE
        rw [if_pos hE] at hres ⊢
        rw [if_pos hEn1] at hres
        simp only [swapQ_setCounters_comm, setCounters_setCounters, mAt_setCounters,
          setCounters_numEntries, setCounters_numNonempty, setCounters_numEnabled,
          mAt_setQ, setQ_numEntries, setQ_numNonempty, setQ_numEnabled,
          hidx1, hent1, hn1, he1] at hres
        have hpos1 : ∀ i, i ≤ s.numNonempty - 1 → (mAt s1 i).part < s1.k ∧
            (mAt s1 ((mAt s1 i).part)).index = i := by
          intro i hi
          obtain ⟨h1, h2, _⟩ := hpos i (by omega)
          exact ⟨h1, h2⟩
        have hpart1 : ∀ p', p' < s1.k → (mAt s1 p').index = kInvalid ∨
            ((mAt s1 p').index ≤ s.numNonempty - 1 ∧
              (mAt s1 ((mAt s1 p').index)).part = p') := by
          intro p' hp'
          rcases hpart p' hp' with hh | ⟨h1, h2⟩
          · exact Or.inl hh
          · have h1' : (mAt s1 p').index < s.numNonempty := h1
            exact Or.inr ⟨by omega, h2⟩
        have hlq1' : s1.queues.length = s1.k := by rw [hk1]; exact hlq1
        have hlm1' : s1.mapping.length = s1.k + 1 := by rw [hk1]; exact hlm1
        have hkinv1 : s1.k < kInvalid := by rw [hk1]; exact hk
        have hmk1 : s.numNonempty - 1 < s1.k := by rw [hk1]; omega
        have ha1 : idx ≤ s.numNonempty - 1 := by omega
        have hb1 : s.numEnabled - 1 ≤ s.numNonempty - 1 := by omega
        obtain ⟨Q1, Q2, Q3, Q4, Q5, Q6, Q7, Q8, Q9⟩ :=
          swapQ_maplayout s1 hlq1' hlm1' hkinv1 hmk1 ha1 hb1 hpos1 hpart1
        have hbkp1 : (mAt s1 idx).part = p := hbkp
        rw [hbkp1] at Q5
        have hqWe := Q7 (s.numEnabled - 1)
        rw [if_pos rfl, hqempty] at hqWe
        set W := swapQ s1 idx (s.numEnabled - 1) with hWdef
        rw [Q5] at hres
        have hsB : setQ (setCounters W s.numEntries s.numNonempty (s.numEnabled - 1))
            (s.numEnabled - 1) []
            = setCounters W s.numEntries s.numNonempty (s.numEnabled - 1) := by
          have hqX : qAt (setCounters W s.numEntries s.numNonempty (s.numEnabled - 1))
              (s.numEnabled - 1) = [] := hqWe
          calc setQ (setCounters W s.numEntries s.numNonempty (s.numEnabled - 1))
                (s.numEnabled - 1) []
              = setQ (setCounters W s.numEntries s.numNonempty (s.numEnabled - 1))
                (s.numEnabled - 1)
                (qAt (setCounters W s.numEntries s.numNonempty (s.numEnabled - 1))
                  (s.numEnabled - 1)) := by rw [hqX]
            _ = setCounters W s.numEntries s.numNonempty (s.numEnabled - 1) :=
                setQ_self _ _
        rw [hsB] at hres
        simp only [swapQ_setCounters_comm, setCounters_setCounters, mAt_setCounters,
          setCounters_numEntries, setCounters_numNonempty, setCounters_numEnabled]
          at hres
        have hrel := relocateEmptied_eq s1 p
        simp only [] at hrel
        rw [hidx1] at hrel
        simp only [swapQ_setCounters_comm, setCounters_setCounters, mAt_setCounters,
          setCounters_numEntries, setCounters_numNonempty, setCounters_numEnabled,
          hent1, hn1, he1] at hrel
        rw [← hWdef, Q5] at hrel
        rw [← hrel] at hres
        exact hres
      · rw [if_neg hE] at hres ⊢
        exact hres
    obtain ⟨hWFF, hcntF, hkF, hun4, hobs5⟩ := popEntry_spec h hp hidxE hlenR
      hs1def rfl hFeq
    exact ⟨hWFF, hcntF, hkF, hun4, hobs5⟩
  · -- the part is disabled
    have hdis : s.numEnabled ≤ idx := by
      rcases Nat.lt_or_ge idx s.numEnabled with hh | hh
      · exact absurd (decide_eq_true (hidxdef ▸ hh)) hEn
      · exact hh
    have hEn1 : ¬ (isEnabledB s1 p = true) := by
      intro hh
      apply hEn
      show decide ((mAt s p).index < s.numEnabled) = true
      have := of_decide_eq_true hh
      rw [hidx1, he1] at this
      exact decide_eq_true (hidxdef ▸ this)
    by_cases hE : (qAt s1 idx).isEmpty
    · -- removal emptied the sub-queue of a disabled part
      have hqempty : qAt s1 idx = [] := by
        cases hq : qAt s1 idx with
        | nil => rfl
        | cons a t => rw [hq] at hE; simp [List.isEmpty] at hE
      rw [if_pos hE, if_neg hEn1] at hres
      simp only [mAt_setQ, setQ_numEntries, setQ_numNonempty, setQ_numEnabled,
        hidx1, hent1, hn1, he1] at hres
      have hsB : setQ s1 idx [] = s1 := by
        calc setQ s1 idx [] = setQ s1 idx (qAt s1 idx) := by rw [hqempty]
          _ = s1 := setQ_self _ _
      rw [hsB] at hres
      set X := setCounters s1 s.numEntries (s.numNonempty - 1) s.numEnabled with hXdef
      have hXidx : (mAt X p).index = idx := hidx1
      have hXn : X.numNonempty = s.numNonempty - 1 := rfl
      rw [← hXidx, ← hXn] at hres
      have hlqX : X.queues.length = X.k := by
        rw [hXdef]
        show s1.queues.length = s1.k
        rw [hk1]
        exact hlq1
      have hlmX : X.mapping.length = X.k + 1 := by
        rw [hXdef]
        show s1.mapping.length = s1.k + 1
        rw [hk1]
        exact hlm1
      have hkinvX : X.k < kInvalid := by
        rw [hXdef]
        show s1.k < kInvalid
        rw [hk1]
        exact hk
      have hnkX : X.numNonempty < X.k := by
        rw [hXn]
        show s.numNonempty - 1 < s1.k
        rw [hk1]
        omega
      have hpX : p < X.k := by
        show p < s1.k
        rw [hk1]
        exact hp
      have hjnX : (mAt X p).index ≤ X.numNonempty := by
        rw [hXidx, hXn]
        omega
      have hjeX : X.numEnabled ≤ (mAt X p).index := by
        rw [hXidx]
        exact hdis
      have hjqX : qAt X ((mAt X p).index) = [] := by
        rw [hXidx]
        exact hqempty
      have hposfX : ∀ i, i ≤ X.numNonempty →
          (mAt X i).part < X.k ∧ (mAt X ((mAt X i).part)).index = i ∧
            (i ≠ (mAt X p).index → qAt X i ≠ []) := by
        intro i hi
        rw [hXn] at hi
        obtain ⟨h1, h2, h3⟩ := hpos i (by omega)
        refine ⟨h1, h2, ?_⟩
        intro hni
        rw [hXidx] at hni
        show qAt s1 i ≠ []
        rw [hq1ne i hni]
        exact h3
      have htailfX : ∀ i, i < X.k → X.numNonempty + 1 ≤ i → qAt X i = [] := by
        intro i hik hi
        rw [hXn] at hi
        have hik' : i < s.k := hik
        show qAt s1 i = []
        rw [hq1ne i (by omega)]
        exact htail i hik' (by omega)
      have hpartfX : ∀ p', p' < X.k → (mAt X p').index = kInvalid ∨
          ((mAt X p').index ≤ X.numNonempty ∧
            (mAt X ((mAt X p').index)).part = p') := by
        intro p' hp'
        rcases hpart p' hp' with hh | ⟨h1, h2⟩
        · exact Or.inl hh
        · have h1' : (mAt X p').index < s.numNonempty := h1
          refine Or.inr ⟨by rw [hXn]; omega, h2⟩
      obtain ⟨R1, R2, R3, R4, R5, R6, R7, R8, R9, R10, R11, R12⟩ :=
        retire_spec X p _ rfl hlqX hlmX hkinvX hnkX hpX hjnX hjeX hjqX
          hposfX htailfX hpartfX
      set M := markUnused (swapQ X ((mAt X p).index) X.numNonempty) p with hMdef
      have hmF : ∀ i, mAt (kwayRemove s id p) i = mAt M i := fun i => by
        rw [hres]
        rfl
      have hqF : ∀ i, qAt (kwayRemove s id p) i = qAt M i := fun i => by
        rw [hres]
        rfl
      have hkF : (kwayRemove s id p).k = M.k := by rw [hres]; rfl
      have hFn : (kwayRemove s id p).numNonempty = M.numNonempty := by rw [hres]; rfl
      have hFe : (kwayRemove s id p).numEnabled = M.numEnabled := by rw [hres]; rfl
      have hFcnt : (kwayRemove s id p).numEntries = M.numEntries - 1 := by
        rw [hres]
        rfl
      have hFq : (kwayRemove s id p).queues = M.queues := by rw [hres]; rfl
      have hXk : X.k = s.k := by
        show s1.k = s.k
        exact hk1
      have hXe : X.numEnabled = s.numEnabled := rfl
      have hXent : X.numEntries = s.numEntries := rfl
      have hXm : ∀ i, mAt X i = mAt s i := fun i => hm1 i
      have hXq1 : ∀ i, qAt X i = qAt s1 i := fun i => rfl
      have hsumX : (X.queues.map List.length).sum + 1 = (s.queues.map List.length).sum := by
        show (s1.queues.map List.length).sum + 1 = _
        exact hsum1
      refine ⟨⟨?_, ?_, ?_, ?_, ?_, ?_, ?_, ?_, ?_⟩, ?_, ?_, ?_, ?_⟩
      · rw [hkF, R1, hXk]
        exact hk
      · rw [show (kwayRemove s id p).queues.length = M.queues.length from by rw [hFq],
          R2, hkF, R1]
        show s1.queues.length = X.k
        rw [hXk]
        exact hlq1
      · rw [show (kwayRemove s id p).mapping.length = M.mapping.length from by
            rw [hres]; rfl,
          R3, hkF, R1]
        show s1.mapping.length = X.k + 1
        rw [hXk]
        exact hlm1
      · rw [hFe, R6, hFn, R5, hXe, hXn]
        omega
      · rw [hFn, R5, hXn, hkF, R1, hXk]
        omega
      · intro i hi
        rw [hFn, R5] at hi
        obtain ⟨h1, h2, h3⟩ := R8 i hi
        refine ⟨?_, ?_, ?_⟩
        · rw [hmF, hkF, R1]
          exact h1
        · rw [hmF, hmF]
          exact h2
        · rw [hqF]
          exact h3
      · intro i hik hi
        rw [hkF, R1] at hik
        rw [hFn, R5] at hi
        rw [hqF]
        exact R9 i hik hi
      · intro p' hp'
        rw [hkF, R1, hXk] at hp'
        by_cases hpp : p' = p
        · left
          rw [hpp, hmF]
          exact R7
        · by_cases hinv : (mAt s p').index = kInvalid
          · left
            rw [hmF]
            exact R10 p' (by rw [hXk]; exact hp') hpp hinv
          · obtain ⟨h1, h2, _, _⟩ := R11 p' (by rw [hXk]; exact hp') hpp hinv
            right
            rw [hmF, hFn, R5, hmF]
            exact ⟨h1, h2⟩
      · rw [hFcnt, R4, hXent]
        rw [show ((kwayRemove s id p).queues.map List.length).sum
            = (M.queues.map List.length).sum from by rw [hFq], R12]
        omega
      · rw [hFcnt, R4, hXent]
        omega
      · rw [hkF, R1, hXk]
      · intro _
        constructor
        · simp [isUnusedB, hmF, R7]
        · simp only [isEnabledB, hmF, R7, hFe, R6, hXe]
          exact decide_eq_false (by omega)
      · intro q hq hqp
        by_cases hun : (mAt s q).index = kInvalid
        · have hMq : (mAt M q).index = kInvalid :=
            R10 q (by rw [hXk]; exact hq) hqp hun
          refine ⟨?_, ?_, ?_⟩
          · simp only [isEnabledB, hmF, hMq, hun]
            rw [show decide (kInvalid < (kwayRemove s id p).numEnabled) = false from
                decide_eq_false (by rw [hFe, R6, hXe]; omega),
              show decide (kInvalid < s.numEnabled) = false from
                decide_eq_false (by omega)]
          · simp only [isUnusedB, hmF, hMq, hun]
          · simp only [sizeOfPart, hmF, hMq, hun]
            rw [if_neg (by rw [hFn, R5, hXn]; omega), if_neg (by omega)]
        · have hqi : (mAt s q).index < s.numNonempty ∧
              (mAt s ((mAt s q).index)).part = q := by
            rcases hpart q hq with hh | hh
            · exact absurd hh hun
            · exact hh
          obtain ⟨h1, h2, h3, h4⟩ := R11 q (by rw [hXk]; exact hq) hqp hun
          have h3' : qAt M ((mAt M q).index) = qAt s ((mAt s q).index) := by
            rw [h3]
            show qAt s1 ((mAt s q).index) = _
            exact hq1ne _ (hqne_idx q hq hqp)
          refine ⟨?_, ?_, ?_⟩
          · simp only [isEnabledB, hmF, hFe, R6]
            exact decide_eq_decide.mpr h4
          · simp only [isUnusedB, hmF]
            rw [show ((mAt M q).index == kInvalid) = false from
                beq_eq_false_iff_ne.mpr (by rw [hXn] at h1; omega),
              show ((mAt s q).index == kInvalid) = false from
                beq_eq_false_iff_ne.mpr (by omega)]
          · simp only [sizeOfPart, hmF, hqF, hFn, R5]
            rw [if_pos (by rw [hXn] at h1 ⊢; omega), if_pos hqi.1, h3']
    · -- sub-queue still nonempty: only the entry count changes
      have hqnonempty : qAt s1 idx ≠ [] := by
        intro hh
        apply hE
        rw [hh]
        rfl
      rw [if_neg hE] at hres
      have hmF : ∀ i, mAt (kwayRemove s id p) i = mAt s i := fun i => by
        rw [hres]
        show mAt s1 i = mAt s i
        exact hm1 i
      have hqF : ∀ i, qAt (kwayRemove s id p) i = qAt s1 i := fun i => by
        rw [hres]
        rfl
      have hkF : (kwayRemove s id p).k = s.k := by
        rw [hres]
        show s1.k = s.k
        exact hk1
      have hFn : (kwayRemove s id p).numNonempty = s.numNonempty := by
        rw [hres]
        show s1.numNonempty = s.numNonempty
        exact hn1
      have hFe : (kwayRemove s id p).numEnabled = s.numEnabled := by
        rw [hres]
        show s1.numEnabled = s.numEnabled
        exact he1
      have hFcnt : (kwayRemove s id p).numEntries = s1.numEntries - 1 := by
        rw [hres]
        rfl
      have hFq : (kwayRemove s id p).queues = s1.queues := by rw [hres]; rfl
      refine ⟨⟨?_, ?_, ?_, ?_, ?_, ?_, ?_, ?_, ?_⟩, ?_, hkF, ?_, ?_⟩
      · rw [hkF]
        exact hk
      · rw [show (kwayRemove s id p).queues.length = s1.queues.length from by
            rw [hFq], hkF]
        exact hlq1
      · rw [show (kwayRemove s id p).mapping.length = s1.mapping.length from by
            rw [hres]; rfl, hkF]
        exact hlm1
      · rw [hFe, hFn]
        exact hen
      · rw [hFn, hkF]
        exact hnn
      · intro i hi
        rw [hFn] at hi
        obtain ⟨h1, h2, h3⟩ := hpos i hi
        refine ⟨by rw [hmF, hkF]; exact h1, by simp only [hmF]; exact h2, ?_⟩
        rw [hqF]
        by_cases hii : i = idx
        · rw [hii]
          exact hqnonempty
        · rw [hq1ne i hii]
          exact h3
      · intro i hik hi
        rw [hkF] at hik
        rw [hFn] at hi
        rw [hqF, hq1ne i (by omega)]
        exact htail i hik hi
      · intro p' hp'
        rw [hkF] at hp'
        simp only [hmF, hFn]
        exact hpart p' hp'
      · rw [hFcnt, hFq, hent1]
        omega
      · rw [hFcnt, hent1]
        omega
      · intro hq'
        exact absurd (by rw [hq1self, hq']; rfl) hE
      · intro q hq hqp
        refine ⟨?_, ?_, ?_⟩
        · simp [isEnabledB, hmF, hFe]
        · simp [isUnusedB, hmF]
        · simp only [sizeOfPart, hmF, hFn]
          by_cases hlt : (mAt s q).index < s.numNonempty
          · rw [if_pos hlt, if_pos hlt, hqF, hq1ne _ (hqne_idx q hq hqp)]
          · rw [if_neg hlt, if_neg hlt]

/-- Every state reachable through the public operations (each within its
asserted precondition) is well-formed. -/
theorem reachable_wf {s : KWayPQ} (h : KWayReachable s) : KWayWF s := by
  induction h with
  | init k hk => exact kwayInit_wf hk
  | insert id part key _ hpart ih => exact kwayInsert_wf ih hpart id key
  | deleteMax _ hne ih =>
    obtain ⟨_, _, _, _, _, _, _, _, hW, _⟩ := kwayDeleteMax_spec ih hne
    exact hW
  | deleteMaxFromPartition part _ hpk he ih =>
    obtain ⟨_, _, _, _, _, hW, _⟩ := kwayDeleteMaxFromPartition_spec ih hpk he
    exact hW
  | remove id part _ hpk hc ih => exact (kwayRemove_spec ih hpk hc).1
  | updateKey id part key _ hpk hlt ih => exact kwayUpdateKey_wf ih hlt key
  | enablePart part _ hpk ih => exact kwayEnablePart_wf ih hpk
  | disablePart part _ hpk ih => exact kwayDisablePart_wf ih hpk

/-- Invariants (i) and (ii) of the spec follow from well-formedness: every
enabled sub-queue is nonempty and the stored entry count equals the sum of
the sub-queue sizes. -/
theorem wf_invariants {t : KWayPQ} (h : KWayWF t) :
    (∀ q, q < t.k → isEnabledB t q = true → qAt t ((mAt t q).index) ≠ []) ∧
    t.numEntries = (t.queues.map List.length).sum := by
  have hWF := h
  obtain ⟨hk, hlq, hlm, hen, hnn, hpos, htail, hpart, hcnt⟩ := hWF
  refine ⟨?_, hcnt⟩
  intro q hq he
  have hidx : (mAt t q).index < t.numEnabled := of_decide_eq_true he
  exact (hpos ((mAt t q).index) (by omega)).2.2

theorem kwayEnablePart_k (s : KWayPQ) (p : Nat) : (kwayEnablePart s p).k = s.k := by
  by_cases hg : (!(isUnusedB s p) && !(isEnabledB s p)) = true
  · rw [kwayEnablePart_eq s hg]
    rfl
  · rw [kwayEnablePart_noop s (by simpa using hg)]

theorem kwayDisablePart_k (s : KWayPQ) (p : Nat) : (kwayDisablePart s p).k = s.k := by
  by_cases hg : isEnabledB s p = true
  · rw [kwayDisablePart_eq s hg]
    rfl
  · rw [kwayDisablePart_noop s (by simpa using hg)]

/-- Through any sequence of enablePart/disablePart calls on valid parts, an
unused part stays unused and the state stays well-formed. -/
theorem applyED_unused {b : Nat} : ∀ (ops : List (Bool × Nat)) (s : KWayPQ),
    KWayWF s → b < s.k → isUnusedB s b = true → (∀ op ∈ ops, op.2 < s.k) →
    isUnusedB (applyEnableDisable s ops) b = true ∧
    KWayWF (applyEnableDisable s ops) ∧ (applyEnableDisable s ops).k = s.k := by
  intro ops
  induction ops with
  | nil =>
    intro s h hb hu _
    exact ⟨hu, h, rfl⟩
  | cons op rest ih =>
    intro s h hb hu hops
    have hopk : op.2 < s.k := hops op (List.mem_cons_self op rest)
    have hstep : applyEnableDisable s (op :: rest) = applyEnableDisable
        (if op.1 then kwayEnablePart s op.2 else kwayDisablePart s op.2) rest := rfl
    rw [hstep]
    by_cases hb1 : op.1 = true
    · rw [if_pos hb1]
      have hks : (kwayEnablePart s op.2).k = s.k := kwayEnablePart_k s op.2
      obtain ⟨h1, h2, h3⟩ := ih (kwayEnablePart s op.2)
        (kwayEnablePart_wf h hopk)
        (by rw [hks]; exact hb)
        (kwayEnablePart_unused h hopk hu)
        (by intro o ho; rw [hks]; exact hops o (List.mem_cons_of_mem op ho))
      exact ⟨h1, h2, by rw [h3, hks]⟩
    · rw [if_neg hb1]
      have hks : (kwayDisablePart s op.2).k = s.k := kwayDisablePart_k s op.2
      obtain ⟨h1, h2, h3⟩ := ih (kwayDisablePart s op.2)
        (kwayDisablePart_wf h hopk)
        (by rw [hks]; exact hb)
        (kwayDisablePart_unused h hopk hu)
        (by intro o ho; rw [hks]; exact hops o (List.mem_cons_of_mem op ho))
      exact ⟨h1, h2, by rw [h3, hks]⟩

/-- C2: in every reachable state of the k-way priority queue with an enabled
(hence non-empty) sub-queue, deleteMax returns an entry stored in an enabled
sub-queue, removes it (the state holds one entry less), and its key is
greater than or equal to the key of every entry stored in any currently
enabled sub-queue. -/
theorem c2_deleteMax_max_key {s : KWayPQ} (h : KWayReachable s)
    (hne : 0 < s.numEnabled) :
    ∃ id key part, (kwayDeleteMax s).1 = some (id, key, part) ∧
      isEnabledB s part = true ∧
      (id, key) ∈ qAt s ((mAt s part).index) ∧
      (kwayDeleteMax s).2.numEntries + 1 = s.numEntries ∧
      ∀ q, q < s.k → isEnabledB s q = true →
        ∀ ent ∈ qAt s ((mAt s q).index), ent.2 ≤ key := by
  have hWF := reachable_wf h
  obtain ⟨id, key, part, h1, h2, h3, h4, h5, hW, hcnt, hk', _⟩ :=
    kwayDeleteMax_spec hWF hne
  refine ⟨id, key, part, h1, h3, h4, hcnt, ?_⟩
  intro q hq he ent hent
  have hidx : (mAt s q).index < s.numEnabled := of_decide_eq_true he
  exact h5 ((mAt s q).index) hidx ent hent

/-- Witness for c2_deleteMax_max_key: insert (5, 3) into part 0 of a 2-part
queue, enable part 0, then deleteMax. -/
theorem c2_deleteMax_max_key_witness :
    (kwayDeleteMax (kwayEnablePart (kwayInsert (kwayInit 2) 5 0 3) 0)).2.numEntries + 1
      = (kwayEnablePart (kwayInsert (kwayInit 2) 5 0 3) 0).numEntries := by
  obtain ⟨id, key, part, h1, h2, h3, h4, h5⟩ :=
    c2_deleteMax_max_key
      (KWayReachable.enablePart 0
        (KWayReachable.insert 5 0 3 (KWayReachable.init 2 (by decide)) (by decide))
        (by decide))
      (by decide)
  exact h4

/-- C3: each operation of the k-way priority queue, applied within its
asserted precondition to a well-formed state, yields a state that again
satisfies invariant (i) (every enabled sub-queue is non-empty) and invariant
(ii) (the stored entry count equals the sum of the sub-queue sizes); and
remove, the operation removing an arbitrary element, on emptying a sub-queue
marks its part unused and disabled with no other observable effect: every
other part keeps its enabled status, its unused status and its size
(invariant (iii)). -/
theorem c3_invariants_preserved :
    (∀ (s : KWayPQ) (id p : Nat) (key : Int), KWayWF s → p < s.k →
      (∀ q, q < (kwayInsert s id p key).k →
        isEnabledB (kwayInsert s id p key) q = true →
        qAt (kwayInsert s id p key) ((mAt (kwayInsert s id p key) q).index) ≠ []) ∧
      (kwayInsert s id p key).numEntries =
        ((kwayInsert s id p key).queues.map List.length).sum) ∧
    (∀ s : KWayPQ, KWayWF s → 0 < s.numEnabled →
      (∀ q, q < (kwayDeleteMax s).2.k →
        isEnabledB (kwayDeleteMax s).2 q = true →
        qAt (kwayDeleteMax s).2 ((mAt (kwayDeleteMax s).2 q).index) ≠ []) ∧
      (kwayDeleteMax s).2.numEntries =
        ((kwayDeleteMax s).2.queues.map List.length).sum) ∧
    (∀ (s : KWayPQ) (p : Nat), KWayWF s → p < s.k → isEnabledB s p = true →
      (∀ q, q < (kwayDeleteMaxFromPartition s p).2.k →
        isEnabledB (kwayDeleteMaxFromPartition s p).2 q = true →
        qAt (kwayDeleteMaxFromPartition s p).2
          ((mAt (kwayDeleteMaxFromPartition s p).2 q).index) ≠ []) ∧
      (kwayDeleteMaxFromPartition s p).2.numEntries =
        ((kwayDeleteMaxFromPartition s p).2.queues.map List.length).sum) ∧
    (∀ (s : KWayPQ) (id p : Nat), KWayWF s → p < s.k → containsB s id p = true →
      (∀ q, q < (kwayRemove s id p).k →
        isEnabledB (kwayRemove s id p) q = true →
        qAt (kwayRemove s id p) ((mAt (kwayRemove s id p) q).index) ≠ []) ∧
      (kwayRemove s id p).numEntries =
        ((kwayRemove s id p).queues.map List.length).sum) ∧
    (∀ (s : KWayPQ) (p : Nat), KWayWF s → p < s.k →
      (∀ q, q < (kwayEnablePart s p).k →
        isEnabledB (kwayEnablePart s p) q = true →
        qAt (kwayEnablePart s p) ((mAt (kwayEnablePart s p) q).index) ≠ []) ∧
      (kwayEnablePart s p).numEntries =
        ((kwayEnablePart s p).queues.map List.length).sum) ∧
    (∀ (s : KWayPQ) (p : Nat), KWayWF s → p < s.k →
      (∀ q, q < (kwayDisablePart s p).k →
        isEnabledB (kwayDisablePart s p) q = true →
        qAt (kwayDisablePart s p) ((mAt (kwayDisablePart s p) q).index) ≠ []) ∧
      (kwayDisablePart s p).numEntries =
        ((kwayDisablePart s p).queues.map List.length).sum) ∧
    (∀ (s : KWayPQ) (id p : Nat), KWayWF s → p < s.k → containsB s id p = true →
      heapRemoveId id (qAt s ((mAt s p).index)) = [] →
      isUnusedB (kwayRemove s id p) p = true ∧
      isEnabledB (kwayRemove s id p) p = false ∧
      (∀ q, q < s.k → q ≠ p →
        isEnabledB (kwayRemove s id p) q = isEnabledB s q ∧
        isUnusedB (kwayRemove s id p) q = isUnusedB s q ∧
        sizeOfPart (kwayRemove s id p) q = sizeOfPart s q)) := by
  refine ⟨?_, ?_, ?_, ?_, ?_, ?_, ?_⟩
  · intro s id p key h hp
    exact wf_invariants (kwayInsert_wf h hp id key)
  · intro s h hne
    obtain ⟨_, _, _, _, _, _, _, _, hW, _⟩ := kwayDeleteMax_spec h hne
    exact wf_invariants hW
  · intro s p h hp he
    obtain ⟨_, _, _, _, _, hW, _⟩ := kwayDeleteMaxFromPartition_spec h hp he
    exact wf_invariants hW
  · intro s id p h hp hc
    exact wf_invariants (kwayRemove_spec h hp hc).1
  · intro s p h hp
    exact wf_invariants (kwayEnablePart_wf h hp)
  · intro s p h hp
    exact wf_invariants (kwayDisablePart_wf h hp)
  · intro s id p h hp hc hempty
    obtain ⟨_, _, _, h4, h5⟩ := kwayRemove_spec h hp hc
    obtain ⟨hu, he⟩ := h4 hempty
    exact ⟨hu, he, h5⟩

/-- Witness for c3_invariants_preserved: inserting into the empty 2-part
queue keeps the entry count equal to the sum of the sub-queue sizes. -/
theorem c3_invariants_preserved_witness :
    (kwayInsert (kwayInit 2) 7 1 5).numEntries =
      ((kwayInsert (kwayInit 2) 7 1 5).queues.map List.length).sum :=
  (c3_invariants_preserved.1 (kwayInit 2) 7 1 5 (by decide) (by decide)).2

/-- C10: enablePart on an unused part and disablePart on a non-enabled part
are no-ops, and consequently no sequence of enablePart/disablePart calls on
valid parts of a well-formed state can make an unused (empty) sub-queue
enabled. -/
theorem c10_enable_disable_noops :
    (∀ (s : KWayPQ) (p : Nat), isUnusedB s p = true → kwayEnablePart s p = s) ∧
    (∀ (s : KWayPQ) (p : Nat), isEnabledB s p = false → kwayDisablePart s p = s) ∧
    (∀ (s : KWayPQ) (b : Nat), KWayWF s → b < s.k → isUnusedB s b = true →
      ∀ ops : List (Bool × Nat), (∀ op ∈ ops, op.2 < s.k) →
      isEnabledB (applyEnableDisable s ops) b = false) := by
  refine ⟨?_, ?_, ?_⟩
  · intro s p hu
    exact kwayEnablePart_noop s (by simp [hu])
  · intro s p he
    exact kwayDisablePart_noop s he
  · intro s b h hb hu ops hops
    obtain ⟨h1, h2, _⟩ := applyED_unused ops s h hb hu hops
    exact isEnabledB_false_of_unused h2 h1

/-- Witness for c10_enable_disable_noops: on the fresh 2-part queue, enabling
or disabling the unused part 1 changes nothing, and after any sequence of
enable/disable calls part 1 is still not enabled. -/
theorem c10_enable_disable_noops_witness :
    kwayEnablePart (kwayInit 2) 1 = kwayInit 2 ∧
    kwayDisablePart (kwayInit 2) 1 = kwayInit 2 ∧
    isEnabledB (applyEnableDisable (kwayInit 2) [(true, 1), (false, 1), (true, 1)]) 1
      = false :=
  ⟨c10_enable_disable_noops.1 (kwayInit 2) 1 (by decide),
   c10_enable_disable_noops.2.1 (kwayInit 2) 1 (by decide),
   c10_enable_disable_noops.2.2 (kwayInit 2) 1 (by decide) (by decide) (by decide)
     [(true, 1), (false, 1), (true, 1)] (by decide)⟩
